import Mathlib

/-!
Verification of the installation and linking subsystem of `add-skill`
(`src/installer.ts`), via a shallow embedding in Lean 4.

The embedding has three layers:
* a model of the Node.js `path` (posix) functions used by the installer
  (`normalize`, `resolve`, `join`, `relative`, `basename`, `dirname`),
  with paths represented as Lean strings;
* a model of the filesystem as a finite map from absolute paths
  (segment lists) to nodes (file / directory / symlink), together with
  models of the `fs/promises` operations the installer calls
  (`mkdir -p`, `lstat`, `readlink`, `rm`, `readdir`, `symlink`, `cp`),
  including symlink-following path walks with an explicit fuel bound
  (the analogue of the kernel's ELOOP limit) and a journal of performed
  mutations;
* direct translations of `sanitizeName`, `isPathSafe`,
  `getCanonicalSkillsDir`, `createSymlink`, `copyDirectory`,
  `installSkillForAgent` and `getInstallPath` from `src/installer.ts`.

The host is modelled as posix (`sep = '/'`); the only platform branch in
the source selects the symlink kind on win32, which does not affect any
of the modelled behaviour.
-/

namespace AddSkill

/-! ## Characters and JS string helpers -/

/-- The character class matched by `\s` in a JavaScript regular expression
(ECMA-262 WhiteSpace and LineTerminator). -/
def isJsSpace (c : Char) : Bool :=
  c = ' ' || c = '\t' || c = '\n' || c = '\r' ||
  c = Char.ofNat 11 || c = Char.ofNat 12 ||
  c = Char.ofNat 0xa0 || c = Char.ofNat 0x1680 ||
  (0x2000 ≤ c.toNat && c.toNat ≤ 0x200a) ||
  c = Char.ofNat 0x2028 || c = Char.ofNat 0x2029 ||
  c = Char.ofNat 0x202f || c = Char.ofNat 0x205f ||
  c = Char.ofNat 0x3000 || c = Char.ofNat 0xfeff

/-- A dot or JS whitespace: the class `[.\s]` used by `sanitizeName`. -/
def dotOrSpace (c : Char) : Bool := c = '.' || isJsSpace c

/-- Characters removed by `sanitizeName`: `[\/\\:\0]`. -/
def isSanStripped (c : Char) : Bool :=
  c = '/' || c = '\\' || c = ':' || c = Char.ofNat 0

/-! ## `sanitizeName` (installer.ts lines 23-37) -/

/-- Result of `name.replace(/[\/\\:\0]/g, '')`. -/
def sanStep1 (l : List Char) : List Char := l.filter (fun c => !isSanStripped c)

/-- Result of `.replace(/^[.\s]+|[.\s]+$/g, '')`: drop the leading and the
trailing run of dots and whitespace. -/
def sanStep2 (l : List Char) : List Char :=
  ((l.dropWhile dotOrSpace).reverse.dropWhile dotOrSpace).reverse

/-- Result of `.replace(/^\.+/, '')`: drop any remaining leading dots. -/
def sanStep3 (l : List Char) : List Char := l.dropWhile (fun c => c = '.')

/-- The sanitized name before the empty-fallback and truncation steps. -/
def sanStripped (l : List Char) : List Char := sanStep3 (sanStep2 (sanStep1 l))

/-- `sanitizeName` from installer.ts: strip `/ \ : \0`, trim leading and
trailing dot/space runs, strip remaining leading dots, fall back to
`unnamed-skill` when empty, truncate to 255 characters. -/
def sanitizeName (name : String) : String :=
  let s3 := sanStripped name.data
  let s4 := if s3 = [] then "unnamed-skill".data else s3
  ⟨s4.take 255⟩

/-! ## Splitting paths into segments -/

/-- Split a character list at `'/'`, keeping empty pieces. -/
def splitSlashGo (cur : List Char) : List Char → List (List Char)
  | [] => [cur.reverse]
  | c :: t => if c = '/' then cur.reverse :: splitSlashGo [] t
              else splitSlashGo (c :: cur) t

/-- The non-empty `'/'`-separated pieces of a path string. -/
def piecesL (l : List Char) : List (List Char) :=
  (splitSlashGo [] l).filter (fun p => p ≠ [])

/-- The non-empty `'/'`-separated segments of a path string, as strings. -/
def piecesS (p : String) : List String := (piecesL p.data).map (fun l => ⟨l⟩)

/-- Whether a path string is absolute (starts with `'/'`). -/
def isAbsL (l : List Char) : Bool :=
  match l with
  | c :: _ => c = '/'
  | [] => false

/-- Whether a path string is absolute. -/
def isAbs (p : String) : Bool := isAbsL p.data

/-- Whether a path string ends with `'/'`. -/
def endsSlash (p : String) : Bool :=
  match p.data.getLast? with
  | some c => c = '/'
  | none => false

/-- Join segments with `'/'` (no leading or trailing separator). -/
def interSlash : List String → String
  | [] => ""
  | [s] => s
  | s :: t => s ++ "/" ++ interSlash t

/-- Render an absolute path from its segments. -/
def pathStr (segs : List String) : String := "/" ++ interSlash segs

/-! ## Segment normalization (Node `normalizeString`) -/

/-- One pass of Node's `normalizeString` over already-split segments:
`"."` is dropped; `".."` pops the previous segment, or is kept at the
front when `allowAbove` is true (relative paths), or dropped at the root
when `allowAbove` is false (absolute paths). `acc` holds the output so
far, reversed. -/
def collapseGo (allowAbove : Bool) (acc : List String) : List String → List String
  | [] => acc.reverse
  | s :: t =>
    if s = "." then collapseGo allowAbove acc t
    else if s = ".." then
      match acc with
      | [] => collapseGo allowAbove (if allowAbove then [".."] else []) t
      | a :: as =>
        if a = ".." then collapseGo allowAbove (if allowAbove then ".." :: a :: as else a :: as) t
        else collapseGo allowAbove as t
    else collapseGo allowAbove (s :: acc) t

/-- Collapse `"."` and `".."` segments of an absolute path. -/
def collapseAbs (l : List String) : List String := collapseGo false [] l

/-- Collapse `"."` and `".."` segments of a relative path (leading `".."`
runs are kept). -/
def collapseRel (l : List String) : List String := collapseGo true [] l

/-! ## Node `path.posix` functions used by installer.ts -/

/-- Node `path.posix.normalize` (the `let`-free rendering of: split,
collapse dot segments, rejoin, reinstate the leading and trailing
separators). -/
def normalizeStr (p : String) : String :=
  if p = "" then "." else
  if interSlash (collapseGo (!isAbs p) [] (piecesS p)) = "" then
    (if isAbs p then "/" else if endsSlash p then "./" else ".")
  else
    (if isAbs p then "/" ++ interSlash (collapseGo (!isAbs p) [] (piecesS p))
     else interSlash (collapseGo (!isAbs p) [] (piecesS p))) ++
    (if endsSlash p then "/" else "")

/-- Node `path.posix.join` (variadic, here over a list of parts). -/
def joinList (l : List String) : String :=
  if l.filter (fun s => s ≠ "") = [] then "."
  else normalizeStr (interSlash (l.filter (fun s => s ≠ "")))

/-- Node `path.posix.join` with two arguments. -/
def joinP (a b : String) : String := joinList [a, b]

/-- The environment fixed for one process: the process working directory
(always an absolute path in Node) and the home directory. -/
structure Env where
  cwd : String
  home : String
deriving DecidableEq, Repr

/-- The segments of `path.resolve(p)` relative to the process working
directory: `p` if absolute, else `cwd + '/' + p`, with `.`/`..` collapsed
against the root. -/
def segsR (env : Env) (p : String) : List String :=
  collapseAbs (piecesS (if isAbs p then p else env.cwd ++ "/" ++ p))

/-- Node `path.resolve` with a single argument, against the process
working directory. -/
def resolveP (env : Env) (p : String) : String := pathStr (segsR env p)

/-- Node `path.resolve(a, b)`. -/
def resolve2 (env : Env) (a b : String) : String :=
  if isAbs b then resolveP env b else resolveP env (a ++ "/" ++ b)

/-- Node `path.posix.basename` (of a path without a suffix argument). -/
def basenameP (p : String) : String :=
  match (piecesS p).getLast? with
  | some s => s
  | none => ""

/-- Node `path.posix.dirname`. -/
def dirnameP (p : String) : String :=
  let segs := piecesS p
  if isAbs p then
    match segs with
    | [] => "/"
    | [_] => "/"
    | _ => "/" ++ interSlash segs.dropLast
  else
    match segs.dropLast with
    | [] => "."
    | xs => interSlash xs

/-- Length of the common leading run of two segment lists. -/
def commonLen : List String → List String → Nat
  | a :: as, b :: bs => if a = b then commonLen as bs + 1 else 0
  | _, _ => 0

/-- Node `path.posix.relative(from, to)`: both are resolved against the
process working directory, the common leading segments are stripped, and
the remainder of `from` is replaced by `".."` steps. -/
def relativeP (env : Env) (f t : String) : String :=
  let fa := segsR env f
  let ta := segsR env t
  if fa = ta then "" else
  let c := commonLen fa ta
  interSlash (List.replicate (fa.length - c) ".." ++ ta.drop c)

/-- JS `String.prototype.startsWith` (prefix of the character sequence). -/
def strStartsWith (s pre : String) : Bool := pre.data.isPrefixOf s.data

/-- JS `a || b` for strings (empty string is falsy). -/
def jsOr (a : Option String) (b : String) : String :=
  match a with
  | some s => if s = "" then b else s
  | none => b

/-! ## `isPathSafe` (installer.ts lines 45-51) -/

/-- `isPathSafe` from installer.ts: the resolved, normalized target must
equal the resolved, normalized base or begin with it followed by the
separator. -/
def isPathSafe (env : Env) (basePath targetPath : String) : Bool :=
  strStartsWith (normalizeStr (resolveP env targetPath))
    (normalizeStr (resolveP env basePath) ++ "/") ||
  normalizeStr (resolveP env targetPath) = normalizeStr (resolveP env basePath)

/-! ## Canonical directory (installer.ts lines 58-61) -/

/-- `getCanonicalSkillsDir` from installer.ts:
`join(global ? homedir() : (cwd || process.cwd()), '.agents', 'skills')`. -/
def getCanonicalSkillsDir (env : Env) (globalScope : Bool) (cwd : Option String) : String :=
  let baseDir := if globalScope then env.home else jsOr cwd env.cwd
  joinList [baseDir, ".agents", "skills"]

/-! ## Filesystem model

A filesystem is a finite map from absolute paths (lists of segments from
the root) to nodes. A symlink node stores the raw link text exactly as
created. `symlinkOk` models whether the host permits creating symlinks
(false simulates an unprivileged Windows host or a filesystem without
symlink support). `journal` records every mutating operation performed,
so that "performs no filesystem mutation" is directly expressible. -/

/-- A filesystem node: regular file with content, directory, or symbolic
link with its raw target text. -/
inductive FNode where
  | file (content : String)
  | dir
  | link (target : String)
deriving DecidableEq, Repr

/-- Whether a node is a directory (the `Dirent.isDirectory()` of a
`readdir withFileTypes` entry, which does not follow symlinks). -/
def FNode.isDir : FNode → Bool
  | .dir => true
  | _ => false

/-- Errors raised by the modelled `fs/promises` operations. -/
inductive FsError where
  | enoent
  | enotdir
  | eexist
  | eisdir
  | einval
  | eloop
  | eperm
  | efuel
deriving DecidableEq, Repr

/-- The `error.message` string of a raised error (always non-empty). -/
def FsError.message : FsError → String
  | .enoent => "ENOENT: no such file or directory"
  | .enotdir => "ENOTDIR: not a directory"
  | .eexist => "EEXIST: file already exists"
  | .eisdir => "EISDIR: illegal operation on a directory"
  | .einval => "EINVAL: invalid argument"
  | .eloop => "ELOOP: too many symbolic links encountered"
  | .eperm => "EPERM: operation not permitted"
  | .efuel => "EFUEL: recursion bound exceeded"

deriving instance DecidableEq for Except

/-- The filesystem state. -/
structure FS where
  symlinkOk : Bool
  nodes : List (List String × FNode)
  journal : List String
deriving DecidableEq, Repr

/-- Look up the node stored at an absolute path. -/
def lookupN (fs : FS) (k : List String) : Option FNode :=
  (fs.nodes.find? (fun kv => kv.1 = k)).map (fun kv => kv.2)

/-- Store a node at an absolute path (replacing any previous node). -/
def setN (fs : FS) (k : List String) (v : FNode) (j : String) : FS :=
  { fs with
    nodes := fs.nodes.filter (fun kv => !(kv.1 = k : Bool)) ++ [(k, v)]
    journal := fs.journal ++ [j] }

/-- Remove the node at an absolute path together with everything below it. -/
def delUnder (fs : FS) (k : List String) (j : String) : FS :=
  { fs with
    nodes := fs.nodes.filter (fun kv => !(k.isPrefixOf kv.1 : Bool))
    journal := fs.journal ++ [j] }

/-- Resolve a raw symlink target against the directory containing the
link: an absolute target stands alone, a relative one is appended. -/
def resolveSegs (baseSegs : List String) (raw : String) : List String :=
  if isAbs raw then collapseAbs (piecesS raw)
  else collapseAbs (baseSegs ++ piecesS raw)

/-- Walk path segments from `acc`, requiring every visited component to
exist and be a directory, and following symlinks (each followed link
consumes one unit of fuel; exhaustion models ELOOP). Returns the fully
resolved segment list. -/
def walkSegs (fs : FS) : Nat → List String → List String → Except FsError (List String)
  | _, acc, [] => .ok acc
  | 0, _, _ => .error .eloop
  | fuel + 1, acc, s :: rest =>
    let cur := acc ++ [s]
    match lookupN fs cur with
    | none => .error .enoent
    | some (.file _) => .error .enotdir
    | some .dir => walkSegs fs fuel cur rest
    | some (.link raw) => walkSegs fs fuel [] (resolveSegs acc raw ++ rest)

/-- Resolve a path following symlinks in all components except the last,
returning the resolved key of the final component. The final component
need not exist. -/
def walkParents (fs : FS) (fuel : Nat) (segs : List String) : Except FsError (List String) :=
  match segs.getLast? with
  | none => .ok []
  | some last =>
    match walkSegs fs fuel [] segs.dropLast with
    | .error e => .error e
    | .ok par => .ok (par ++ [last])

/-- `lstat`: resolve the parents, then inspect the final component
without following it. -/
def lstatM (env : Env) (fuel : Nat) (fs : FS) (p : String) : Except FsError FNode :=
  match segsR env p with
  | [] => .ok .dir
  | segs =>
    match walkParents fs fuel segs with
    | .error e => .error e
    | .ok full =>
      match lookupN fs full with
      | none => .error .enoent
      | some n => .ok n

/-- Resolve a path following symlinks in every component including the
last; returns the resolved key and its node. -/
def resolveFull (fs : FS) : Nat → List String → Except FsError (List String × FNode)
  | 0, _ => .error .eloop
  | fuel + 1, segs =>
    match segs.getLast? with
    | none => .ok ([], .dir)
    | some last =>
      match walkSegs fs (fuel + 1) [] segs.dropLast with
      | .error e => .error e
      | .ok par =>
        let full := par ++ [last]
        match lookupN fs full with
        | none => .error .enoent
        | some (.link raw) => resolveFull fs fuel (resolveSegs par raw)
        | some n => .ok (full, n)

/-- The immediate children of a directory key, with their nodes. -/
def childrenOf (fs : FS) (base : List String) : List (String × FNode) :=
  fs.nodes.filterMap (fun kv =>
    match kv.1.getLast? with
    | some n => if kv.1.dropLast = base then some (n, kv.2) else none
    | none => none)

/-- `readdir(p, withFileTypes)`: follows symlinks (including a final
symlink), then lists the entries of the resolved directory. -/
def readdirM (env : Env) (fuel : Nat) (fs : FS) (p : String) : Except FsError (List (String × FNode)) :=
  match resolveFull fs fuel (segsR env p) with
  | .error e => .error e
  | .ok (full, .dir) => .ok (childrenOf fs full)
  | .ok _ => .error .enotdir

/-- `access(p)`: succeeds when the fully resolved path exists. -/
def accessM (env : Env) (fuel : Nat) (fs : FS) (p : String) : Except FsError Unit :=
  match resolveFull fs fuel (segsR env p) with
  | .error e => .error e
  | .ok _ => .ok ()

/-- The worker of `mkdir -p`: walk the segments creating missing
directories, following symlinks in existing components. -/
def mkdirpGo (fs : FS) : Nat → List String → List String → Except FsError Unit × FS
  | _, _, [] => (.ok (), fs)
  | 0, _, _ => (.error .eloop, fs)
  | fuel + 1, acc, s :: rest =>
    let cur := acc ++ [s]
    match lookupN fs cur with
    | none => mkdirpGo (setN fs cur .dir ("mkdir " ++ pathStr cur)) fuel cur rest
    | some .dir => mkdirpGo fs fuel cur rest
    | some (.file _) => (.error .eexist, fs)
    | some (.link raw) => mkdirpGo fs fuel [] (resolveSegs acc raw ++ rest)

/-- `mkdir(p, recursive)`. -/
def mkdirp (env : Env) (fuel : Nat) (fs : FS) (p : String) : Except FsError Unit × FS :=
  mkdirpGo fs fuel [] (segsR env p)

/-- `rm(p)` / `rm(p, recursive)`: inspects the final component without
following it (a symlink is removed, not its target); without `recursive`
a directory is refused; without `force` a missing path is an error. -/
def rmM (env : Env) (fuel : Nat) (fs : FS) (p : String) (recursive : Bool) : Except FsError Unit × FS :=
  match segsR env p with
  | [] => (.error .eperm, fs)
  | segs =>
    match walkParents fs fuel segs with
    | .error e => (.error e, fs)
    | .ok full =>
      match lookupN fs full with
      | none => (.error .enoent, fs)
      | some (.link _) => (.ok (), delUnder fs full ("rm " ++ pathStr full))
      | some (.file _) => (.ok (), delUnder fs full ("rm " ++ pathStr full))
      | some .dir =>
        if recursive then (.ok (), delUnder fs full ("rm -r " ++ pathStr full))
        else (.error .eisdir, fs)

/-- `symlink(target, linkPath)`: stores the raw target text at
`linkPath`, which must not exist; refused when the host does not permit
symlink creation. -/
def symlinkM (env : Env) (fuel : Nat) (fs : FS) (target linkPath : String) : Except FsError Unit × FS :=
  if !fs.symlinkOk then (.error .eperm, fs) else
  match segsR env linkPath with
  | [] => (.error .einval, fs)
  | segs =>
    match walkParents fs fuel segs with
    | .error e => (.error e, fs)
    | .ok full =>
      match lookupN fs full with
      | some _ => (.error .eexist, fs)
      | none => (.ok (), setN fs full (.link target) ("symlink " ++ pathStr full))

/-- `cp(src, dest)` with Node's defaults (`dereference: false`,
`verbatimSymlinks: false`, no `recursive`): a file is copied; a symlink
is re-created at the destination with its target resolved against the
source link's directory when relative; a directory is refused. -/
def cpM (env : Env) (fuel : Nat) (fs : FS) (src dest : String) : Except FsError Unit × FS :=
  match lstatM env fuel fs src with
  | .error e => (.error e, fs)
  | .ok .dir => (.error .eisdir, fs)
  | .ok (.file c) =>
    match segsR env dest with
    | [] => (.error .eisdir, fs)
    | dsegs =>
      match walkParents fs fuel dsegs with
      | .error e => (.error e, fs)
      | .ok full =>
        match lookupN fs full with
        | some .dir => (.error .eisdir, fs)
        | _ => (.ok (), setN fs full (.file c) ("write " ++ pathStr full))
  | .ok (.link raw) =>
    let resolvedSrc := if isAbs raw then raw else resolve2 env (dirnameP src) raw
    symlinkM env fuel fs resolvedSrc dest

/-! ## Installer data model (types.ts / installer.ts) -/

/-- A resolved skill (the fields of `Skill` the installer reads). -/
structure Skill where
  name : String
  description : String
  path : String
deriving DecidableEq, Repr

/-- The agent-configuration fields the installer reads
(`agents[agentType].skillsDir` and `.globalSkillsDir`). -/
structure AgentConfig where
  skillsDir : String
  globalSkillsDir : String
deriving DecidableEq, Repr

/-- The options record of `installSkillForAgent`. -/
structure InstallOptions where
  globalScope : Option Bool := none
  cwd : Option String := none
  noSymlink : Option Bool := none
deriving DecidableEq, Repr

/-- The `InstallResult` record. `symlinkFailed = none` models the field
being absent. -/
structure InstallResult where
  success : Bool
  path : String
  canonicalPath : Option String := none
  symlinkFailed : Option Bool := none
  error : Option String := none
deriving DecidableEq, Repr

/-- The traversal-rejection error string of installer.ts. -/
def travMsg : String := "Invalid skill name: potential path traversal detected"

/-! ## `createSymlink` (installer.ts lines 67-95) -/

/-- The tail of `createSymlink` after the inner try block: ensure the
link's parent directory exists, compute the relative link text, create
the link; any failure is reported as `false` (fallback to copy). -/
def finishSymlink (env : Env) (fuel : Nat) (fs : FS) (target linkPath : String) : Bool × FS :=
  match mkdirp env fuel fs (joinP linkPath "..") with
  | (.error _, fs1) => (false, fs1)
  | (.ok _, fs1) =>
    match symlinkM env fuel fs1 (relativeP env (joinP linkPath "..") target) linkPath with
    | (.error _, fs2) => (false, fs2)
    | (.ok _, fs2) => (true, fs2)

/-- `createSymlink` from installer.ts: if `linkPath` is already a symlink
whose `resolve`d raw text equals the `resolve`d target, report success
without touching the filesystem; otherwise remove whatever is there
(errors of this inner block are swallowed), then create a relative
symlink; report `false` on any failure. -/
def createSymlinkM (env : Env) (fuel : Nat) (fs : FS) (target linkPath : String) : Bool × FS :=
  match lstatM env fuel fs linkPath with
  | .ok (.link existingTarget) =>
    if resolveP env existingTarget = resolveP env target then (true, fs)
    else finishSymlink env fuel (rmM env fuel fs linkPath false).2 target linkPath
  | .ok _ => finishSymlink env fuel (rmM env fuel fs linkPath true).2 target linkPath
  | .error _ => finishSymlink env fuel fs target linkPath

/-! ## `copyDirectory` (installer.ts lines 181-211) -/

/-- The administrative files excluded from copies (`EXCLUDE_FILES` plus
the underscore rule of `isExcluded`). -/
def isExcluded (name : String) : Bool :=
  name = "README.md" || name = "metadata.json" || strStartsWith name "_"

/-- The entry loop of `copyDirectory`: excluded entries are skipped,
directories are copied via the supplied recursive copy, everything else
via `cp`; the first error aborts the loop. -/
def copyEntries (env : Env) (fuel : Nat)
    (copyRec : FS → String → String → Except FsError Unit × FS) :
    FS → String → String → List (String × FNode) → Except FsError Unit × FS
  | fs, _, _, [] => (.ok (), fs)
  | fs, src, dest, (name, node) :: rest =>
    if isExcluded name then copyEntries env fuel copyRec fs src dest rest
    else
      let srcPath := joinP src name
      let destPath := joinP dest name
      match (if node.isDir then copyRec fs srcPath destPath
             else cpM env fuel fs srcPath destPath) with
      | (.error e, fs1) => (.error e, fs1)
      | (.ok _, fs1) => copyEntries env fuel copyRec fs1 src dest rest

/-- `copyDirectory` from installer.ts: create the destination, read the
source entries, and copy each non-excluded entry (recursing into
directories). The fuel bounds the recursion depth. -/
def copyDir (env : Env) : Nat → FS → String → String → Except FsError Unit × FS
  | 0, fs, _, _ => (.error .efuel, fs)
  | fuel + 1, fs, src, dest =>
    match mkdirp env (fuel + 1) fs dest with
    | (.error e, fs1) => (.error e, fs1)
    | (.ok _, fs1) =>
      match readdirM env (fuel + 1) fs1 src with
      | .error e => (.error e, fs1)
      | .ok entries =>
        copyEntries env (fuel + 1) (fun fs2 s d => copyDir env fuel fs2 s d) fs1 src dest entries

/-! ## `installSkillForAgent` (installer.ts lines 97-179) -/

/-- The raw skill name before sanitization:
`skill.name || basename(skill.path)`. -/
def rawName (skill : Skill) : String :=
  if skill.name = "" then basenameP skill.path else skill.name

/-- The sanitized directory segment the installer uses for a skill. -/
def skillNameOf (skill : Skill) : String := sanitizeName (rawName skill)

/-- The agent-side base directory used both by `installSkillForAgent`
and `getInstallPath`: the agent's global directory in global scope, else
the agent's skills directory under the working directory. -/
def agentBaseDir (env : Env) (agent : AgentConfig) (opts : InstallOptions) : String :=
  if opts.globalScope.getD false then agent.globalSkillsDir
  else joinP (jsOr opts.cwd env.cwd) agent.skillsDir

/-- The four paths computed by `installSkillForAgent`:
(canonicalBase, canonicalDir, agentBase, agentDir). -/
def installPaths (env : Env) (skill : Skill) (agent : AgentConfig)
    (opts : InstallOptions) : String × String × String × String :=
  (getCanonicalSkillsDir env (opts.globalScope.getD false) (some (jsOr opts.cwd env.cwd)),
   joinP (getCanonicalSkillsDir env (opts.globalScope.getD false) (some (jsOr opts.cwd env.cwd)))
     (skillNameOf skill),
   agentBaseDir env agent opts,
   joinP (agentBaseDir env agent opts) (skillNameOf skill))

/-- `mkdir(dir, recursive)` followed by `copyDirectory(srcPath, dir)`:
the canonical-store population step, also used for the direct and
fallback copies into the agent directory. -/
def copyPhase (env : Env) (fuel : Nat) (fs : FS) (srcPath dir : String) : Except FsError Unit × FS :=
  match mkdirp env fuel fs dir with
  | (.error e, fs1) => (.error e, fs1)
  | (.ok _, fs1) => copyDir env fuel fs1 srcPath dir

/-- `installSkillForAgent` from installer.ts. All filesystem errors of
the try block are caught and returned as a failed result carrying the
error message; a symlink failure alone triggers the copy fallback and an
informational `symlinkFailed` flag. -/
def installSkillForAgentM (env : Env) (fuel : Nat) (fs : FS) (skill : Skill)
    (agent : AgentConfig) (opts : InstallOptions) : InstallResult × FS :=
  let paths := installPaths env skill agent opts
  let canonicalBase := paths.1
  let canonicalDir := paths.2.1
  let agentBase := paths.2.2.1
  let agentDir := paths.2.2.2
  if !isPathSafe env canonicalBase canonicalDir then
    ({ success := false, path := agentDir, error := some travMsg }, fs)
  else if !isPathSafe env agentBase agentDir then
    ({ success := false, path := agentDir, error := some travMsg }, fs)
  else
    match copyPhase env fuel fs skill.path canonicalDir with
    | (.error e, fs1) =>
      ({ success := false, path := agentDir, error := some e.message }, fs1)
    | (.ok _, fs1) =>
      if opts.noSymlink.getD false then
        match copyPhase env fuel fs1 skill.path agentDir with
        | (.error e, fs2) =>
          ({ success := false, path := agentDir, error := some e.message }, fs2)
        | (.ok _, fs2) =>
          ({ success := true, path := agentDir, canonicalPath := some canonicalDir }, fs2)
      else
        match createSymlinkM env fuel fs1 canonicalDir agentDir with
        | (true, fs2) =>
          ({ success := true, path := agentDir, canonicalPath := some canonicalDir }, fs2)
        | (false, fs2) =>
          match copyPhase env fuel fs2 skill.path agentDir with
          | (.error e, fs3) =>
            ({ success := false, path := agentDir, error := some e.message }, fs3)
          | (.ok _, fs3) =>
            ({ success := true, path := agentDir, canonicalPath := some canonicalDir,
               symlinkFailed := some true }, fs3)

/-! ## `getInstallPath` (installer.ts lines 239-259) -/

/-- `getInstallPath` from installer.ts: the agent-visible install path of
a skill name; throws (modelled as `Except.error`) on a traversal-unsafe
result. -/
def getInstallPathM (env : Env) (skillName : String) (agent : AgentConfig)
    (opts : InstallOptions) : Except String String :=
  if !isPathSafe env (agentBaseDir env agent opts)
      (joinP (agentBaseDir env agent opts) (sanitizeName skillName)) then .error travMsg
  else .ok (joinP (agentBaseDir env agent opts) (sanitizeName skillName))

/-! ## Sanitizer lemmas -/

/-- A normal path segment: non-empty, not a dot segment, and free of the
separator. Sanitized names are normal segments. -/
def normalSeg (s : String) : Bool :=
  !(s = "" : Bool) && !(s = "." : Bool) && !(s = ".." : Bool) &&
    s.data.all (fun c => !(c = '/' : Bool))

/-- A filesystem with no symlink nodes anywhere. -/
def linkFreeFS (fs : FS) : Bool :=
  fs.nodes.all (fun kv => match kv.2 with | .link _ => false | _ => true)

/-- A filesystem whose stored keys consist of normal segments only. -/
def wfFS (fs : FS) : Bool := fs.nodes.all (fun kv => kv.1.all normalSeg)

/-! ## Named projections of the installer's computed paths -/

/-- The canonical base (`<scope-root>/.agents/skills`) computed by
`installSkillForAgent`. -/
def canonicalBaseOf (env : Env) (skill : Skill) (agent : AgentConfig) (opts : InstallOptions) : String :=
  (installPaths env skill agent opts).1

/-- The canonical skill directory computed by `installSkillForAgent`. -/
def canonicalDirOf (env : Env) (skill : Skill) (agent : AgentConfig) (opts : InstallOptions) : String :=
  (installPaths env skill agent opts).2.1

/-- The agent base directory computed by `installSkillForAgent`. -/
def agentBaseOf (env : Env) (skill : Skill) (agent : AgentConfig) (opts : InstallOptions) : String :=
  (installPaths env skill agent opts).2.2.1

/-- The agent skill directory computed by `installSkillForAgent`. -/
def agentDirOf (env : Env) (skill : Skill) (agent : AgentConfig) (opts : InstallOptions) : String :=
  (installPaths env skill agent opts).2.2.2

/-! ## Concrete fixtures

The agent registry (`agents.ts`) is not among the sources under
verification; only its consumers are. The two entries below are
modelled from the spec and the repository's tests. -/

/-- Modelled from the spec: the agent registry `agents.ts` is missing
from the sources; per spec section 2 it is a fixed static mapping to
`skillsDir`/`globalSkillsDir`. This models the `amp` agent, whose
project-scope `skillsDir` is `.agents/skills` and therefore coincides
with the canonical store (the self-loop configuration exercised by
`tests/installer-symlink.test.ts`). -/
def ampConfig : AgentConfig :=
  { skillsDir := ".agents/skills", globalSkillsDir := "/h/.agents/skills" }

/-- Modelled from the spec: the `claude-code` agent entry of the missing
registry, with project-scope `skillsDir` `.claude/skills` as exercised
by `tests/installer-symlink.test.ts`. -/
def claudeConfig : AgentConfig :=
  { skillsDir := ".claude/skills", globalSkillsDir := "/h/.claude/skills" }

/-- The process environment of the concrete scenarios. -/
def scEnv : Env := { cwd := "/r/p", home := "/h" }

/-- Project-scope install options with an explicit working directory. -/
def optsP : InstallOptions := { cwd := some "/r/p" }

/-- A source skill rooted at `/r/src` containing a single manifest file. -/
def skillS : Skill := { name := "s", description := "d", path := "/r/src" }

/-- A filesystem holding the source skill of `skillS` and an empty
project directory `/r/p`. -/
def fsBase : FS :=
  { symlinkOk := true
    journal := []
    nodes := [(["r"], .dir), (["r", "p"], .dir), (["r", "src"], .dir),
              (["r", "src", "SKILL.md"], .file "m")] }

/-- A skill whose name is a path-traversal attempt. -/
def skillEtc : Skill := { name := "../../etc", description := "d", path := "/r/src" }

/-- A source tree at `/r/sk` containing a relative symlink `data` to the
sibling directory `/r/ext` (the shape of the repository's symlinked-skill
regression test). -/
def fsLinkTree : FS :=
  { symlinkOk := true
    journal := []
    nodes := [(["r"], .dir), (["r", "sk"], .dir), (["r", "sk", "SKILL.md"], .file "m"),
              (["r", "sk", "data"], .link "../ext"), (["r", "ext"], .dir),
              (["r", "ext", "info.txt"], .file "hello")] }

/-- A state in which the skill `s` is installed canonically and the
`claude-code` agent directory already holds a relative symlink whose
target, resolved against the link's parent directory, is exactly the
canonical directory. -/
def fsLinked : FS :=
  { symlinkOk := true
    journal := []
    nodes := [(["r"], .dir), (["r", "p"], .dir), (["r", "p", ".agents"], .dir),
              (["r", "p", ".agents", "skills"], .dir),
              (["r", "p", ".agents", "skills", "s"], .dir),
              (["r", "p", ".agents", "skills", "s", "SKILL.md"], .file "m"),
              (["r", "p", ".claude"], .dir), (["r", "p", ".claude", "skills"], .dir),
              (["r", "p", ".claude", "skills", "s"], .link "../../.agents/skills/s")] }

/-- A source tree at `/r/sk` containing a dangling symlink `broken`
(target `/r/nope` does not exist). -/
def fsBroken : FS :=
  { symlinkOk := true
    journal := []
    nodes := [(["r"], .dir), (["r", "p"], .dir), (["r", "sk"], .dir),
              (["r", "sk", "SKILL.md"], .file "m"), (["r", "sk", "broken"], .link "../nope")] }

/-- The skill rooted at the broken-symlink source tree. -/
def skillB : Skill := { name := "b", description := "d", path := "/r/sk" }

/-- The fixture filesystem on a host that refuses symlink creation. -/
def fsNoSym : FS :=
  { symlinkOk := false
    journal := []
    nodes := [(["r"], .dir), (["r", "p"], .dir), (["r", "src"], .dir),
              (["r", "src", "SKILL.md"], .file "m")] }

/-- A source tree containing the administrative files `README.md`,
`metadata.json` and `_x` next to the manifest. -/
def fsAdmin : FS :=
  { symlinkOk := true
    journal := []
    nodes := [(["r"], .dir), (["r", "p"], .dir), (["r", "src"], .dir),
              (["r", "src", "SKILL.md"], .file "m"), (["r", "src", "README.md"], .file "r"),
              (["r", "src", "metadata.json"], .file "j"), (["r", "src", "_x"], .file "x")] }

/-- The 257-character name `a` followed by 255 dots and `b`. -/
def longDotName : String := ⟨'a' :: (List.replicate 255 '.' ++ ['b'])⟩

/-- The head of a `dropWhile` result never satisfies the predicate. -/
theorem dropWhile_head_not (p : Char → Bool) (l : List Char) (c : Char)
    (h : (l.dropWhile p).head? = some c) : p c = false := by
  induction l with
  | nil => simp [List.dropWhile] at h
  | cons a t ih =>
    rw [List.dropWhile_cons] at h
    by_cases hp : p a
    · simp [hp] at h
      exact ih h
    · simp [hp] at h
      rw [← h]
      simpa using hp

/-- A non-empty list that is a prefix of another has the same head. -/
theorem head?_of_pre {l t : List Char} (h : l <+: t) (c : Char)
    (hh : l.head? = some c) : t.head? = some c := by
  obtain ⟨r, rfl⟩ := h
  cases l with
  | nil => simp at hh
  | cons a s => simpa using hh

/-- `sanStep2` is a prefix of the leading-trim of its input. -/
theorem sanStep2_pre (l : List Char) : sanStep2 l <+: l.dropWhile dotOrSpace := by
  have h : (l.dropWhile dotOrSpace).reverse.dropWhile dotOrSpace
      <:+ (l.dropWhile dotOrSpace).reverse := List.dropWhile_suffix dotOrSpace
  have h2 := List.reverse_prefix.mpr h
  rw [List.reverse_reverse] at h2
  rw [sanStep2]
  exact h2

/-- The head of `sanStep2` is never a dot or whitespace. -/
theorem sanStep2_head (l : List Char) (c : Char)
    (h : (sanStep2 l).head? = some c) : dotOrSpace c = false :=
  dropWhile_head_not dotOrSpace l c (head?_of_pre (sanStep2_pre l) c h)

/-- The last character of `sanStep2` is never a dot or whitespace. -/
theorem sanStep2_last (l : List Char) (c : Char)
    (h : (sanStep2 l).getLast? = some c) : dotOrSpace c = false := by
  rw [← List.head?_reverse] at h
  rw [sanStep2, List.reverse_reverse] at h
  exact dropWhile_head_not dotOrSpace _ c h

/-- A list whose head does not satisfy the predicate is untouched by
`dropWhile`. -/
theorem dropWhile_id_of_head (p : Char → Bool) (l : List Char)
    (h : ∀ c, l.head? = some c → p c = false) : l.dropWhile p = l := by
  cases l with
  | nil => rfl
  | cons a t => simp [List.dropWhile_cons, h a rfl]

/-- The leading-dot strip of `sanitizeName` is the identity: `sanStep2`
already removed every leading dot. -/
theorem sanStep3_eq (l : List Char) : sanStep3 (sanStep2 l) = sanStep2 l := by
  refine dropWhile_id_of_head _ _ (fun c hc => ?_)
  have := sanStep2_head l c hc
  rw [dotOrSpace] at this
  exact (Bool.or_eq_false_iff.mp this).1

/-- `sanStripped` is `sanStep2` of the separator-free filter. -/
theorem sanStripped_eq (l : List Char) : sanStripped l = sanStep2 (sanStep1 l) := by
  rw [sanStripped, sanStep3_eq]

/-- Every character surviving sanitization was kept by the
separator-stripping filter. -/
theorem sanStripped_mem (l : List Char) (c : Char) (h : c ∈ sanStripped l) :
    isSanStripped c = false := by
  rw [sanStripped_eq] at h
  have hsub : List.Sublist (sanStep2 (sanStep1 l)) (sanStep1 l) :=
    (sanStep2_pre (sanStep1 l)).sublist.trans (List.dropWhile_sublist _)
  have := hsub.mem h
  simpa using (List.mem_filter.mp this).2

/-- `take (n+1)` preserves non-emptiness. -/
theorem take_succ_ne_nil {l : List Char} (h : l ≠ []) (n : Nat) :
    l.take (n + 1) ≠ [] := by
  cases l with
  | nil => exact absurd rfl h
  | cons a t => simp

/-- `take (n+1)` preserves the head. -/
theorem take_succ_head (l : List Char) (n : Nat) :
    (l.take (n + 1)).head? = l.head? := by
  cases l <;> simp

/-- The character list underlying `sanitizeName`. -/
theorem sanitizeName_data (s : String) :
    (sanitizeName s).data =
      (if sanStripped s.data = [] then "unnamed-skill".data else sanStripped s.data).take 255 := by
  rw [sanitizeName]

/-- `sanitizeName` never returns the empty string. -/
theorem sanitizeName_ne_empty (s : String) : sanitizeName s ≠ "" := by
  intro h
  have hd : (sanitizeName s).data = [] := by rw [h]
  rw [sanitizeName_data] at hd
  have h255 : (255 : Nat) = 254 + 1 := by norm_num
  by_cases he : sanStripped s.data = []
  · rw [he] at hd
    simp at hd
  · rw [if_neg he, h255] at hd
    exact take_succ_ne_nil he 254 hd

/-- Every character of a sanitized name avoids the stripped class
(`/ \ : \0`). -/
theorem sanitizeName_chars (s : String) (c : Char)
    (h : c ∈ (sanitizeName s).data) : isSanStripped c = false := by
  rw [sanitizeName_data] at h
  have h2 := (List.take_sublist 255 _).mem h
  by_cases he : sanStripped s.data = []
  · rw [if_pos he] at h2
    have hall : ∀ d ∈ "unnamed-skill".data, isSanStripped d = false := by decide
    exact hall c h2
  · rw [if_neg he] at h2
    exact sanStripped_mem s.data c h2

/-- The first character of a sanitized name is never a dot or
whitespace. -/
theorem sanitizeName_head (s : String) (c : Char)
    (h : (sanitizeName s).data.head? = some c) : dotOrSpace c = false := by
  rw [sanitizeName_data] at h
  have h255 : (255 : Nat) = 254 + 1 := by norm_num
  rw [h255, take_succ_head] at h
  by_cases he : sanStripped s.data = []
  · rw [if_pos he] at h
    have hu : ("unnamed-skill".data).head? = some 'u' := rfl
    rw [hu] at h
    injection h with h
    rw [← h]
    decide
  · rw [if_neg he, sanStripped_eq] at h
    exact sanStep2_head (sanStep1 s.data) c h

/-- Sanitized names never exceed 255 characters. -/
theorem sanitizeName_len (s : String) : (sanitizeName s).data.length ≤ 255 := by
  rw [sanitizeName_data]
  simp [List.length_take]

/-- A name that strips to nothing becomes the fixed fallback. -/
theorem sanitizeName_fallback (s : String) (h : sanStripped s.data = []) :
    sanitizeName s = "unnamed-skill" := by
  rw [sanitizeName, h]
  rfl

/-- When no truncation happens, the last character of a sanitized name is
never a dot or whitespace. -/
theorem sanitizeName_last (s : String) (hlen : (sanStripped s.data).length ≤ 255)
    (c : Char) (h : (sanitizeName s).data.getLast? = some c) : dotOrSpace c = false := by
  by_cases he : sanStripped s.data = []
  · rw [sanitizeName_fallback s he] at h
    have hu : ("unnamed-skill".data).getLast? = some 'l' := rfl
    rw [hu] at h
    injection h with h
    rw [← h]
    decide
  · rw [sanitizeName_data, if_neg he, List.take_of_length_le hlen, sanStripped_eq] at h
    exact sanStep2_last (sanStep1 s.data) c h

/-- A sanitized name is a normal path segment: non-empty, not `.` or
`..`, and separator-free. -/
theorem sanitizeName_normalSeg (s : String) : normalSeg (sanitizeName s) = true := by
  rw [normalSeg]
  refine Bool.and_eq_true_iff.mpr ⟨Bool.and_eq_true_iff.mpr ⟨Bool.and_eq_true_iff.mpr ⟨?_, ?_⟩, ?_⟩, ?_⟩
  · simpa using sanitizeName_ne_empty s
  · by_contra hdot
    simp at hdot
    have : (sanitizeName s).data.head? = some '.' := by rw [hdot]; rfl
    have := sanitizeName_head s '.' this
    revert this
    decide
  · by_contra hdot
    simp at hdot
    have : (sanitizeName s).data.head? = some '.' := by rw [hdot]; rfl
    have := sanitizeName_head s '.' this
    revert this
    decide
  · rw [List.all_eq_true]
    intro c hc
    have := sanitizeName_chars s c hc
    rw [isSanStripped] at this
    simp only [Bool.or_eq_false_iff] at this
    simpa using this.1.1.1

/-! ## Path algebra lemmas -/

/-- An element of a `some` `getLast?` is a member of the list. -/
theorem getLast?_mem_of {α : Type} (l : List α) (a : α) (h : l.getLast? = some a) : a ∈ l := by
  have := List.mem_getLast?_eq_getLast (l := l) (x := a) (by rw [h]; rfl)
  obtain ⟨hne, rfl⟩ := this
  exact List.getLast_mem hne

/-- Unfolding: joining the empty segment list. -/
theorem interSlash_nil : interSlash [] = "" := rfl

/-- Unfolding: joining a single segment. -/
theorem interSlash_one (s : String) : interSlash [s] = s := rfl

/-- Unfolding: joining at least two segments. -/
theorem interSlash_cons2 (x y : String) (u : List String) :
    interSlash (x :: y :: u) = x ++ "/" ++ interSlash (y :: u) := rfl

/-- Splitting distributes over a separator occurrence. -/
theorem splitSlashGo_append (l₂ : List Char) : ∀ (l₁ cur : List Char),
    splitSlashGo cur (l₁ ++ '/' :: l₂) = splitSlashGo cur l₁ ++ splitSlashGo [] l₂ := by
  intro l₁
  induction l₁ with
  | nil => intro cur; simp [splitSlashGo]
  | cons c t ih =>
    intro cur
    by_cases hc : c = '/'
    · simp [splitSlashGo, hc, ih]
    · simp [splitSlashGo, hc, ih]

/-- The pieces of a path distribute over a separator occurrence. -/
theorem piecesL_append (a b : List Char) : piecesL (a ++ '/' :: b) = piecesL a ++ piecesL b := by
  rw [piecesL, piecesL, piecesL, splitSlashGo_append, List.filter_append]

/-- String form of `piecesL_append`. -/
theorem piecesS_append (a b : String) : piecesS (a ++ "/" ++ b) = piecesS a ++ piecesS b := by
  have hd : (a ++ "/" ++ b).data = a.data ++ '/' :: b.data := by
    rw [String.data_append, String.data_append]
    show (a.data ++ ['/']) ++ b.data = a.data ++ '/' :: b.data
    simp
  rw [piecesS, hd, piecesL_append, List.map_append]
  rfl

/-- Splitting a separator-free list yields the single piece. -/
theorem splitSlashGo_noSlash (l : List Char) (h : '/' ∉ l) :
    ∀ cur, splitSlashGo cur l = [cur.reverse ++ l] := by
  induction l with
  | nil => intro cur; simp [splitSlashGo]
  | cons c t ih =>
    intro cur
    have hc : ¬(c = '/') := fun hh => h (hh ▸ List.mem_cons_self c t)
    have ht : '/' ∉ t := fun hh => h (List.mem_cons_of_mem c hh)
    simp [splitSlashGo, hc, ih ht]

/-- A non-empty separator-free list is its own single piece. -/
theorem piecesL_single (l : List Char) (h : '/' ∉ l) (hne : l ≠ []) : piecesL l = [l] := by
  rw [piecesL, splitSlashGo_noSlash l h]
  simp [hne]

/-- Helper: a string is empty exactly when its character list is. -/
theorem str_ne_empty_iff (s : String) : s ≠ "" ↔ s.data ≠ [] := by
  cases s with
  | mk d => simp [String.ext_iff]

/-- A normal segment is not empty, not a dot segment, and separator-free. -/
theorem normalSeg_parts (s : String) (h : normalSeg s = true) :
    s ≠ "" ∧ ¬(s = ".") ∧ ¬(s = "..") ∧ '/' ∉ s.data := by
  rw [normalSeg] at h
  simp only [Bool.and_eq_true, List.all_eq_true] at h
  refine ⟨by simpa using h.1.1.1, by simpa using h.1.1.2, by simpa using h.1.2, fun hm => ?_⟩
  have := h.2 '/' hm
  simp at this

/-- A normal segment is its own single piece. -/
theorem piecesS_single (s : String) (h : normalSeg s = true) : piecesS s = [s] := by
  obtain ⟨h1, _, _, h4⟩ := normalSeg_parts s h
  rw [piecesS, piecesL_single s.data h4 ((str_ne_empty_iff s).mp h1)]
  cases s with
  | mk d => rfl

/-- Unfolding: collapsing past a `"."` segment. -/
theorem collapseGo_cons_dot (allow : Bool) (acc t : List String) :
    collapseGo allow acc ("." :: t) = collapseGo allow acc t := by
  simp [collapseGo]

/-- Unfolding: an absolute collapse drops `".."` at the root. -/
theorem collapseAbs_cons_dd_nil (t : List String) :
    collapseGo false [] (".." :: t) = collapseGo false [] t := by
  simp [collapseGo]

/-- Unfolding: an absolute collapse pops the previous segment at `".."`. -/
theorem collapseAbs_cons_dd_cons (a : String) (as t : List String) :
    collapseGo false (a :: as) (".." :: t) =
      if a = ".." then collapseGo false (a :: as) t else collapseGo false as t := by
  by_cases ha : a = ".."
  · simp [collapseGo, ha]
  · simp [collapseGo, ha]

/-- Unfolding: collapsing keeps a normal segment. -/
theorem collapseGo_cons_seg (allow : Bool) (acc t : List String) (s : String)
    (h1 : ¬(s = ".")) (h2 : ¬(s = "..")) :
    collapseGo allow acc (s :: t) = collapseGo allow (s :: acc) t := by
  simp [collapseGo, h1, h2]

/-- Appending a normal segment commutes with collapsing. -/
theorem collapseGo_concat (allow : Bool) (s : String) (hs1 : ¬(s = "."))
    (hs2 : ¬(s = "..")) :
    ∀ (l acc : List String), collapseGo allow acc (l ++ [s]) = collapseGo allow acc l ++ [s] := by
  intro l
  induction l with
  | nil =>
    intro acc
    simp [collapseGo, hs1, hs2]
  | cons x t ih =>
    intro acc
    by_cases hx : x = "."
    · simp [collapseGo, hx, ih]
    · by_cases hxx : x = ".."
      · cases acc with
        | nil => simp [collapseGo, hx, hxx, ih]
        | cons a as =>
          by_cases ha : a = ".."
          · simp [collapseGo, hx, hxx, ha, ih]
          · simp [collapseGo, hx, hxx, ha, ih]
      · simp [collapseGo, hx, hxx, ih]

/-- A list without dot segments is unchanged by collapsing. -/
theorem collapseGo_fixed (allow : Bool) :
    ∀ (l acc : List String), (∀ x ∈ l, ¬(x = ".") ∧ ¬(x = "..")) →
      collapseGo allow acc l = acc.reverse ++ l := by
  intro l
  induction l with
  | nil => intro acc _; simp [collapseGo]
  | cons x t ih =>
    intro acc h
    have hx := h x (List.mem_cons_self x t)
    have ht : ∀ y ∈ t, ¬(y = ".") ∧ ¬(y = "..") := fun y hy => h y (List.mem_cons_of_mem x hy)
    simp [collapseGo, hx.1, hx.2, ih (x :: acc) ht]

/-- Every output segment of an absolute collapse is an input segment or
an accumulator entry, and never a dot segment. -/
theorem collapseGo_mem :
    ∀ (l acc : List String) (x : String), x ∈ collapseGo false acc l →
      x ∈ acc ∨ (x ∈ l ∧ ¬(x = ".") ∧ ¬(x = "..")) := by
  intro l
  induction l with
  | nil =>
    intro acc x h
    have : collapseGo false acc [] = acc.reverse := rfl
    rw [this] at h
    exact Or.inl (List.mem_reverse.mp h)
  | cons s t ih =>
    intro acc x h
    by_cases hs : s = "."
    · subst hs
      rw [collapseGo_cons_dot] at h
      rcases ih acc x h with h1 | h2
      · exact Or.inl h1
      · exact Or.inr ⟨List.mem_cons_of_mem _ h2.1, h2.2⟩
    · by_cases hss : s = ".."
      · subst hss
        cases acc with
        | nil =>
          rw [collapseAbs_cons_dd_nil] at h
          rcases ih [] x h with h1 | h2
          · simp at h1
          · exact Or.inr ⟨List.mem_cons_of_mem _ h2.1, h2.2⟩
        | cons a as =>
          rw [collapseAbs_cons_dd_cons] at h
          by_cases ha : a = ".."
          · rw [if_pos ha] at h
            rcases ih (a :: as) x h with h1 | h2
            · exact Or.inl h1
            · exact Or.inr ⟨List.mem_cons_of_mem _ h2.1, h2.2⟩
          · rw [if_neg ha] at h
            rcases ih as x h with h1 | h2
            · exact Or.inl (List.mem_cons_of_mem a h1)
            · exact Or.inr ⟨List.mem_cons_of_mem _ h2.1, h2.2⟩
      · rw [collapseGo_cons_seg false acc t s hs hss] at h
        rcases ih (s :: acc) x h with h1 | h2
        · rcases List.mem_cons.mp h1 with h3 | h4
          · exact Or.inr ⟨h3 ▸ List.mem_cons_self s t, h3 ▸ ⟨hs, hss⟩⟩
          · exact Or.inl h4
        · exact Or.inr ⟨List.mem_cons_of_mem s h2.1, h2.2⟩

/-- Pieces carry no separator. -/
theorem splitSlashGo_mem :
    ∀ (l cur p : List Char), '/' ∉ cur → p ∈ splitSlashGo cur l → '/' ∉ p := by
  intro l
  induction l with
  | nil =>
    intro cur p hcur hp
    rw [splitSlashGo] at hp
    rcases List.mem_singleton.mp hp with rfl
    simpa using hcur
  | cons c t ih =>
    intro cur p hcur hp
    by_cases hc : c = '/'
    · rw [splitSlashGo, if_pos hc] at hp
      rcases List.mem_cons.mp hp with rfl | h2
      · simpa using hcur
      · exact ih [] p (by simp) h2
    · rw [splitSlashGo, if_neg hc] at hp
      refine ih (c :: cur) p ?_ hp
      intro hm
      rcases List.mem_cons.mp hm with h3 | h4
      · exact hc h3.symm
      · exact hcur h4

/-- Members of `piecesL` are non-empty and separator-free. -/
theorem piecesL_mem (l p : List Char) (h : p ∈ piecesL l) : p ≠ [] ∧ '/' ∉ p := by
  rw [piecesL] at h
  have h2 := List.mem_filter.mp h
  exact ⟨by simpa using h2.2, splitSlashGo_mem l [] p (by simp) h2.1⟩

/-- Members of `piecesS` are non-empty and separator-free. -/
theorem piecesS_mem (s x : String) (h : x ∈ piecesS s) : x ≠ "" ∧ '/' ∉ x.data := by
  rw [piecesS] at h
  obtain ⟨p, hp, rfl⟩ := List.mem_map.mp h
  have h2 := piecesL_mem s.data p hp
  exact ⟨by simpa [str_ne_empty_iff] using h2.1, h2.2⟩

/-- Packaging: non-empty, dot-free, separator-free strings are normal. -/
theorem normalSeg_of (x : String) (h1 : x ≠ "") (h2 : ¬(x = ".")) (h3 : ¬(x = ".."))
    (h4 : '/' ∉ x.data) : normalSeg x = true := by
  rw [normalSeg]
  simp only [Bool.and_eq_true, List.all_eq_true]
  refine ⟨⟨⟨by simpa using h1, by simpa using h2⟩, by simpa using h3⟩, ?_⟩
  intro c hc
  simp only [Bool.not_eq_eq_eq_not, Bool.not_true, decide_eq_false_iff_not]
  intro hcc
  exact h4 (hcc ▸ hc)

/-- Every segment of a resolved path is normal. -/
theorem segsR_wf (env : Env) (p : String) : ∀ x ∈ segsR env p, normalSeg x = true := by
  intro x hx
  rw [segsR, collapseAbs] at hx
  rcases collapseGo_mem _ [] x hx with h1 | h2
  · simp at h1
  · obtain ⟨hmem, hdot, hdotdot⟩ := h2
    obtain ⟨hne, hns⟩ := piecesS_mem _ x hmem
    exact normalSeg_of x hne hdot hdotdot hns

/-- Joining non-empty segments yields a non-empty string. -/
theorem interSlash_ne_empty (X : List String) (hne : X ≠ []) (h : ∀ x ∈ X, x ≠ "") :
    interSlash X ≠ "" := by
  cases X with
  | nil => exact absurd rfl hne
  | cons x t =>
    cases t with
    | nil =>
      rw [interSlash_one]
      exact h x (List.mem_cons_self x [])
    | cons y u =>
      rw [interSlash_cons2, str_ne_empty_iff, String.data_append, String.data_append]
      intro hh
      rcases List.append_eq_nil.mp hh with ⟨h1, -⟩
      rcases List.append_eq_nil.mp h1 with ⟨h2, -⟩
      exact (str_ne_empty_iff x).mp (h x (List.mem_cons_self x (y :: u))) h2

/-- Joining distributes over appending a final segment. -/
theorem interSlash_concat (s : String) :
    ∀ (B : List String), B ≠ [] → interSlash (B ++ [s]) = interSlash B ++ "/" ++ s := by
  intro B
  induction B with
  | nil => intro h; exact absurd rfl h
  | cons b t ih =>
    intro _
    cases t with
    | nil =>
      rw [interSlash_one]
      rfl
    | cons y u =>
      have hih := ih (by simp)
      rw [List.cons_append] at hih
      rw [List.cons_append, List.cons_append, interSlash_cons2, hih, interSlash_cons2]
      simp only [String.append_assoc]

/-- The last character of a join of separator-free non-empty segments is
never the separator. -/
theorem interSlash_last :
    ∀ (X : List String), (∀ x ∈ X, x ≠ "" ∧ '/' ∉ x.data) →
      ∀ c, (interSlash X).data.getLast? = some c → ¬(c = '/') := by
  intro X
  induction X with
  | nil =>
    intro _ c hc
    rw [interSlash_nil] at hc
    simp at hc
  | cons x t ih =>
    intro hX c hc
    cases t with
    | nil =>
      rw [interSlash_one] at hc
      exact fun hcc => (hX x (List.mem_cons_self x [])).2 (hcc ▸ getLast?_mem_of _ c hc)
    | cons y u =>
      rw [interSlash_cons2, String.data_append] at hc
      have hne : (interSlash (y :: u)).data ≠ [] := by
        rw [← str_ne_empty_iff]
        exact interSlash_ne_empty (y :: u) (by simp)
          (fun z hz => (hX z (List.mem_cons_of_mem x hz)).1)
      rw [List.getLast?_append_of_ne_nil _ hne] at hc
      exact ih (fun z hz => hX z (List.mem_cons_of_mem x hz)) c hc

/-- Splitting after a leading separator drops it. -/
theorem piecesL_slash_cons (l : List Char) : piecesL ('/' :: l) = piecesL l := by
  rw [piecesL, piecesL]
  rw [show ('/' :: l) = [] ++ '/' :: l from rfl, splitSlashGo_append]
  simp [splitSlashGo]

/-- Splitting a join of normal pieces recovers the pieces. -/
theorem piecesS_interSlash :
    ∀ (X : List String), (∀ x ∈ X, x ≠ "" ∧ '/' ∉ x.data) → piecesS (interSlash X) = X := by
  intro X
  induction X with
  | nil =>
    intro _
    rfl
  | cons x t ih =>
    intro h
    cases t with
    | nil =>
      rw [interSlash_one]
      have hx := h x (List.mem_cons_self x [])
      rw [piecesS, piecesL_single x.data hx.2 ((str_ne_empty_iff x).mp hx.1)]
      cases x with
      | mk d => rfl
    | cons y u =>
      rw [interSlash_cons2, piecesS_append, ih (fun z hz => h z (List.mem_cons_of_mem x hz))]
      have hx := h x (List.mem_cons_self x (y :: u))
      rw [piecesS, piecesL_single x.data hx.2 ((str_ne_empty_iff x).mp hx.1)]
      cases x with
      | mk d => rfl

/-- Collapsing a list of normal segments is the identity. -/
theorem collapseAbs_fixed (X : List String) (h : ∀ x ∈ X, normalSeg x = true) :
    collapseAbs X = X := by
  rw [collapseAbs, collapseGo_fixed false X []]
  · rfl
  · intro x hx
    obtain ⟨_, h2, h3, _⟩ := normalSeg_parts x (h x hx)
    exact ⟨h2, h3⟩

/-- A rendered absolute path is itself absolute. -/
theorem pathStr_abs (X : List String) : isAbs (pathStr X) = true := by
  rw [pathStr, isAbs, String.data_append]
  rfl

/-- The underlying characters of a rendered path. -/
theorem pathStr_data (X : List String) : (pathStr X).data = '/' :: (interSlash X).data := by
  rw [pathStr, String.data_append]
  rfl

/-- Resolving a rendered absolute path of normal segments recovers the
segments. -/
theorem segsR_pathStr (env : Env) (X : List String) (hX : ∀ x ∈ X, normalSeg x = true) :
    segsR env (pathStr X) = X := by
  rw [segsR, if_pos (pathStr_abs X)]
  have hp : piecesS (pathStr X) = X := by
    rw [piecesS, pathStr_data, piecesL_slash_cons, ← piecesS]
    exact piecesS_interSlash X (fun x hx => (normalSeg_parts x (hX x hx)).imp id (fun h => h.2.2))
  rw [hp]
  exact collapseAbs_fixed X hX

/-- Resolved paths are fixed points of `normalize`. -/
theorem normalizeStr_resolveP (env : Env) (p : String) :
    normalizeStr (resolveP env p) = resolveP env p := by
  have hwf := segsR_wf env p
  rw [resolveP]
  generalize hXc : segsR env p = X at hwf
  cases X with
  | nil =>
    rw [show pathStr [] = "/" from by rw [pathStr, interSlash_nil, String.append_empty]]
    decide
  | cons x t =>
    have hXne : ∀ z ∈ x :: t, z ≠ "" ∧ '/' ∉ z.data :=
      fun z hz => (normalSeg_parts z (hwf z hz)).imp id (fun h => h.2.2)
    have hne : (pathStr (x :: t)) ≠ "" := by
      rw [str_ne_empty_iff, pathStr_data]
      simp
    have habs : isAbs (pathStr (x :: t)) = true := pathStr_abs _
    have hisne : (interSlash (x :: t)).data ≠ [] := by
      rw [← str_ne_empty_iff]
      exact interSlash_ne_empty _ (by simp) (fun z hz => (hXne z hz).1)
    have htrail : endsSlash (pathStr (x :: t)) = false := by
      rw [endsSlash, pathStr_data]
      rw [show ('/' :: (interSlash (x :: t)).data) = ['/'] ++ (interSlash (x :: t)).data from rfl]
      rw [List.getLast?_append_of_ne_nil _ hisne]
      cases hg : (interSlash (x :: t)).data.getLast? with
      | none => rfl
      | some c =>
        simpa using interSlash_last (x :: t) hXne c hg
    have hp : piecesS (pathStr (x :: t)) = x :: t := by
      rw [piecesS, pathStr_data, piecesL_slash_cons, ← piecesS]
      exact piecesS_interSlash _ hXne
    have hcol : collapseGo (!isAbs (pathStr (x :: t))) [] (piecesS (pathStr (x :: t))) = x :: t := by
      rw [habs, hp, Bool.not_true, ← collapseAbs]
      exact collapseAbs_fixed _ hwf
    have hbody : interSlash (collapseGo (!isAbs (pathStr (x :: t))) [] (piecesS (pathStr (x :: t)))) ≠ "" := by
      rw [hcol]
      exact interSlash_ne_empty _ (by simp) (fun z hz => (hXne z hz).1)
    rw [normalizeStr, if_neg hne, if_neg hbody, hcol, habs, htrail]
    rw [if_pos rfl, if_neg (by simp : ¬(false = true)), String.append_empty, pathStr]

/-- An absolute path stays absolute under string append. -/
theorem isAbs_append (p q : String) (hp : isAbs p = true) : isAbs (p ++ q) = true := by
  rw [isAbs, String.data_append]
  rw [isAbs] at hp
  cases hd : p.data with
  | nil => rw [hd] at hp; simp [isAbsL] at hp
  | cons c t =>
    rw [hd] at hp
    rw [List.cons_append]
    exact hp

/-- Resolving the join of an absolute path and a normal segment appends
the segment to the resolved base. -/
theorem segsR_join (env : Env) (p s : String) (hp : isAbs p = true)
    (hs : normalSeg s = true) :
    segsR env (joinP p s) = segsR env p ++ [s] := by
  obtain ⟨hs1, hs2, hs3, hs4⟩ := normalSeg_parts s hs
  have hpne : p ≠ "" := by
    rw [str_ne_empty_iff]
    intro hd
    rw [isAbs, hd] at hp
    simp [isAbsL] at hp
  have hparts : [p, s].filter (fun z => (z ≠ "" : Bool)) = [p, s] := by
    simp [hpne, hs1]
  have hjoin : joinP p s = normalizeStr (p ++ "/" ++ s) := by
    rw [joinP, joinList, hparts, if_neg (by simp)]
    rfl
  have habs : isAbs (p ++ "/" ++ s) = true := isAbs_append _ _ (isAbs_append _ _ hp)
  have hne : (p ++ "/" ++ s) ≠ "" := by
    rw [str_ne_empty_iff, String.data_append]
    intro hh
    have := List.append_eq_nil.mp hh
    exact (str_ne_empty_iff s).mp hs1 this.2
  have htrail : endsSlash (p ++ "/" ++ s) = false := by
    rw [endsSlash, String.data_append]
    have hsne : s.data ≠ [] := (str_ne_empty_iff s).mp hs1
    rw [List.getLast?_append_of_ne_nil _ hsne]
    cases hg : s.data.getLast? with
    | none => rfl
    | some c =>
      have hmem := getLast?_mem_of _ c hg
      have : ¬(c = '/') := fun hcc => hs4 (hcc ▸ hmem)
      simpa using this
  have hpieces : piecesS (p ++ "/" ++ s) = piecesS p ++ [s] := by
    rw [piecesS_append, piecesS_single s hs]
  have hCne : ∀ x ∈ collapseAbs (piecesS p), x ≠ "" := by
    intro x hx
    rcases collapseGo_mem _ [] x hx with h3 | h4
    · simp at h3
    · exact (piecesS_mem p x h4.1).1
  have hCwf : ∀ x ∈ collapseAbs (piecesS p) ++ [s], normalSeg x = true := by
    intro x hx
    rcases List.mem_append.mp hx with h1 | h2
    · rcases collapseGo_mem _ [] x h1 with h3 | h4
      · simp at h3
      · obtain ⟨hmem, hdot, hdd⟩ := h4
        obtain ⟨hne2, hns⟩ := piecesS_mem p x hmem
        exact normalSeg_of x hne2 hdot hdd hns
    · rw [List.mem_singleton.mp h2]
      exact hs
  have hsegs : collapseGo (!isAbs (p ++ "/" ++ s)) [] (piecesS (p ++ "/" ++ s))
      = collapseAbs (piecesS p) ++ [s] := by
    rw [habs, Bool.not_true, hpieces, ← collapseAbs, collapseAbs, collapseAbs,
      collapseGo_concat false s hs2 hs3]
  have hbody : interSlash (collapseGo (!isAbs (p ++ "/" ++ s)) [] (piecesS (p ++ "/" ++ s))) ≠ "" := by
    rw [hsegs]
    refine interSlash_ne_empty _ (by simp) ?_
    intro x hx
    rcases List.mem_append.mp hx with h1 | h2
    · exact hCne x h1
    · rw [List.mem_singleton.mp h2]
      exact hs1
  have hjoin2 : joinP p s = pathStr (collapseAbs (piecesS p) ++ [s]) := by
    rw [hjoin, normalizeStr, if_neg hne, if_neg hbody, hsegs, habs, htrail]
    rw [if_pos rfl, if_neg (by simp : ¬(false = true)), String.append_empty, pathStr]
  rw [hjoin2, segsR_pathStr env _ hCwf, segsR, if_pos hp]

/-- A string starts with itself extended by any suffix. -/
theorem strStartsWith_append (a b : String) : strStartsWith (a ++ b) a = true := by
  rw [strStartsWith, String.data_append]
  rw [ List.isPrefixOf_iff_prefix]
  exact List.prefix_append a.data b.data

/-! ## Evaluation theorems refuting individual claims -/

/-- C1: in the very configuration the claim quantifies over — the
computed canonical directory equals the computed agent directory
(`amp`, project scope) — `installSkillForAgent` in symlink mode does
create a symlink at that path pointing to itself: the returned result is
`success` with `symlinkFailed` absent, yet the final entry at the shared
directory is a symlink whose raw text names the directory itself, and
the copied manifest has been destroyed. This refutes the claim that the
final entry is a plain directory containing the copied skill content
(the behaviour the repository's own regression test
`tests/installer-symlink.test.ts` demands). -/
theorem c1_self_loop_symlink_created :
    canonicalDirOf scEnv skillS ampConfig optsP = agentDirOf scEnv skillS ampConfig optsP ∧
    (installSkillForAgentM scEnv 20 fsBase skillS ampConfig optsP).1 =
      { success := true, path := "/r/p/.agents/skills/s",
        canonicalPath := some "/r/p/.agents/skills/s" } ∧
    lookupN (installSkillForAgentM scEnv 20 fsBase skillS ampConfig optsP).2
      ["r", "p", ".agents", "skills", "s"] = some (.link "s") ∧
    lookupN (installSkillForAgentM scEnv 20 fsBase skillS ampConfig optsP).2
      ["r", "p", ".agents", "skills", "s", "SKILL.md"] = none := by
  decide

/-- C2 counterexample: for the skill name `../../etc` the install does
not return `success:false` with a traversal error; the name is
sanitized to `etc` and the install succeeds. -/
theorem c2_traversal_name_not_rejected :
    sanitizeName "../../etc" = "etc" ∧
    (installSkillForAgentM scEnv 20 fsBase skillEtc claudeConfig optsP).1.success = true ∧
    (installSkillForAgentM scEnv 20 fsBase skillEtc claudeConfig optsP).1.error = none := by
  decide

/-- C3: `copyDirectory` on a source tree holding a relative symlink
`data -> ../ext` succeeds but emits a symlink in the destination (with
the target resolved to an absolute path, per Node `fs.cp` defaults),
rather than the target's real content: the destination tree is not
symlink-free. The repository's own test
(`resolves and copies symlinked directories`) demands the flattened
behaviour the claim states, so the code is in the wrong. -/
theorem c3_symlink_copied_not_flattened :
    (copyDir scEnv 20 fsLinkTree "/r/sk" "/r/out").1 = .ok () ∧
    lookupN (copyDir scEnv 20 fsLinkTree "/r/sk" "/r/out").2 ["r", "out", "data"]
      = some (.link "/r/ext") ∧
    lookupN (copyDir scEnv 20 fsLinkTree "/r/sk" "/r/out").2 ["r", "out", "data", "info.txt"]
      = none := by
  decide

/-- C5: a state in which the link path is a symlink whose target,
resolved against the link's parent directory (symlink semantics),
is exactly the canonical target — yet `createSymlink` removes and
recreates the link (two journal entries) instead of returning with no
filesystem mutation. The raw link text is relative (as `createSymlink`
itself writes), but the code compares `resolve(existingTarget)` against
the process working directory, so its idempotence check never fires for
its own links. -/
theorem c5_correct_link_still_mutated :
    resolveSegs (segsR scEnv "/r/p/.claude/skills") "../../.agents/skills/s"
      = segsR scEnv "/r/p/.agents/skills/s" ∧
    (createSymlinkM scEnv 20 fsLinked "/r/p/.agents/skills/s" "/r/p/.claude/skills/s").1 = true ∧
    (createSymlinkM scEnv 20 fsLinked "/r/p/.agents/skills/s" "/r/p/.claude/skills/s").2.journal
      = ["rm /r/p/.claude/skills/s", "symlink /r/p/.claude/skills/s"] := by
  decide

/-- C7: installing a source tree that contains a dangling symlink
succeeds, but the broken entry is not omitted: `cp` recreates the
dangling link (with absolutized target `/r/nope`) inside the canonical
directory. The repository's own test (`skips broken symlinks
gracefully`) demands the omission the claim states. -/
theorem c7_broken_symlink_copied :
    (installSkillForAgentM scEnv 20 fsBroken skillB claudeConfig optsP).1.success = true ∧
    lookupN (installSkillForAgentM scEnv 20 fsBroken skillB claudeConfig optsP).2
      ["r", "p", ".agents", "skills", "b", "broken"] = some (.link "/r/nope") := by
  decide

set_option maxRecDepth 8000 in
/-- C4 counterexample: on the 257-character input
`a` + 255 dots + `b`, the stripped name is longer than 255 characters
and truncation cuts off the final `b`, so the sanitized result ends in
a run of dots — refuting the claim that the result never has a trailing
dot run. -/
theorem c4_truncation_exposes_trailing_dot :
    (sanitizeName longDotName).data.getLast? = some '.' ∧
    (sanitizeName longDotName).data.length = 255 ∧
    dotOrSpace '.' = true := by
  decide

/-- C9 counterexample: for the absolute base `"/"` (the filesystem
root), `isPathSafe "/" (join "/" (sanitizeName name))` is `false`: the
code appends the separator to the normalized base, producing `"//"`,
which is never a prefix of a normalized path. So the claim's universal
quantification over every absolute base fails at the root. -/
theorem c9_root_base_fails_gate :
    isAbs "/" = true ∧
    isPathSafe scEnv "/" (joinP "/" (sanitizeName "x")) = false := by
  decide

/-! ## C4 (amended): the sanitizer contract -/

/-- C4 (amended): `sanitizeName` is total and pure by construction; for
every input it returns a non-empty string of at most 255 characters
containing none of `/ \ : \0`, whose first character is never a dot or
whitespace, and an input that strips to nothing yields the fixed
fallback `unnamed-skill`. The trailing-run guarantee holds whenever the
stripped name is at most 255 characters long — truncation of a longer
stripped name can expose a trailing dot/whitespace run (see the
counterexample), which is the one amendment to the claim. -/
theorem c4_sanitize_contract (s : String) :
    sanitizeName s ≠ "" ∧
    (∀ c ∈ (sanitizeName s).data, isSanStripped c = false) ∧
    (∀ c, (sanitizeName s).data.head? = some c → dotOrSpace c = false) ∧
    (sanitizeName s).data.length ≤ 255 ∧
    (sanStripped s.data = [] → sanitizeName s = "unnamed-skill") ∧
    ((sanStripped s.data).length ≤ 255 →
      ∀ c, (sanitizeName s).data.getLast? = some c → dotOrSpace c = false) :=
  ⟨sanitizeName_ne_empty s, fun c hc => sanitizeName_chars s c hc,
   fun c hc => sanitizeName_head s c hc, sanitizeName_len s,
   fun h => sanitizeName_fallback s h,
   fun hlen c hc => sanitizeName_last s hlen c hc⟩

/-- Witness for C4: the contract applied to the concrete input
` ..my/name.. `, whose sanitized form is `myname` (last character `e`),
with both hypotheses discharged by evaluation. -/
theorem c4_sanitize_contract_witness :
    sanitizeName " ..my/name.. " ≠ "" ∧ dotOrSpace 'e' = false :=
  ⟨(c4_sanitize_contract " ..my/name.. ").1,
   (c4_sanitize_contract " ..my/name.. ").2.2.2.2.2 (by decide) 'e' (by decide)⟩

/-! ## C9 (amended): sanitized names always pass the gate away from the root -/

/-- C9 (amended): for every input name and every absolute base directory
that does not resolve to the filesystem root, the sanitized name joined
below the base passes `isPathSafe` — so the traversal-detected branch of
`installSkillForAgent` is unreachable for sanitizer-derived paths under
the non-root bases the installer actually computes. (At the root base
`"/"` itself the gate fails spuriously; see the counterexample.) -/
theorem c9_sanitize_always_safe (env : Env) (base name : String)
    (hb : isAbs base = true) (hroot : resolveP env base ≠ "/") :
    isPathSafe env base (joinP base (sanitizeName name)) = true := by
  have hs : normalSeg (sanitizeName name) = true := sanitizeName_normalSeg name
  have hB : segsR env base ≠ [] := by
    intro h0
    apply hroot
    rw [resolveP, h0, pathStr, interSlash_nil, String.append_empty]
  have h1 : normalizeStr (resolveP env base) = resolveP env base := normalizeStr_resolveP env base
  have h2 : normalizeStr (resolveP env (joinP base (sanitizeName name)))
      = resolveP env (joinP base (sanitizeName name)) := normalizeStr_resolveP env _
  have h3 : segsR env (joinP base (sanitizeName name)) = segsR env base ++ [sanitizeName name] :=
    segsR_join env base _ hb hs
  have h4 : resolveP env (joinP base (sanitizeName name))
      = resolveP env base ++ "/" ++ sanitizeName name := by
    rw [resolveP, h3, pathStr, interSlash_concat _ _ hB, resolveP, pathStr]
    simp only [String.append_assoc]
  rw [isPathSafe, h1, h2, h4, strStartsWith_append]
  rfl

/-- Witness for C9: the amended gate property at a concrete non-root
base and a traversal-shaped name. -/
theorem c9_sanitize_always_safe_witness :
    isPathSafe scEnv "/r/p/.claude/skills"
      (joinP "/r/p/.claude/skills" (sanitizeName "../../etc")) = true :=
  c9_sanitize_always_safe scEnv "/r/p/.claude/skills" "../../etc" (by decide) (by decide)

/-! ## C10: install and lookup agree on the target path -/

/-- Every branch of `installSkillForAgent` reports the computed agent
directory as `path`. -/
theorem installM_path_eq (env : Env) (fuel : Nat) (fs : FS) (skill : Skill)
    (agent : AgentConfig) (opts : InstallOptions) :
    (installSkillForAgentM env fuel fs skill agent opts).1.path
      = agentDirOf env skill agent opts := by
  rw [agentDirOf, installSkillForAgentM]
  split
  · rfl
  · split
    · rfl
    · split
      · rfl
      · split
        · split
          · rfl
          · rfl
        · split
          · rfl
          · split
            · rfl
            · rfl

/-- A successful `getInstallPath` returns the join of the agent base and
the sanitized name. -/
theorem getInstallPathM_ok (env : Env) (skillName : String) (agent : AgentConfig)
    (opts : InstallOptions) (p : String)
    (hok : getInstallPathM env skillName agent opts = .ok p) :
    p = joinP (agentBaseDir env agent opts) (sanitizeName skillName) := by
  unfold getInstallPathM at hok
  split at hok
  · cases hok
  · cases hok
    rfl

/-- C10: for every skill with a non-empty name, agent configuration and
options, whenever `getInstallPath` returns a path (it throws only in the
unreachable traversal case), that path equals the `path` field of the
`InstallResult` returned by `installSkillForAgent` with the same
options — the removal flow deletes exactly the directory the installer
reported. -/
theorem c10_install_remove_path_agreement (env : Env) (fuel : Nat) (fs : FS)
    (skill : Skill) (agent : AgentConfig) (opts : InstallOptions) (p : String)
    (hname : ¬(skill.name = ""))
    (hok : getInstallPathM env skill.name agent opts = .ok p) :
    (installSkillForAgentM env fuel fs skill agent opts).1.path = p := by
  rw [installM_path_eq, getInstallPathM_ok env skill.name agent opts p hok]
  rw [agentDirOf, installPaths, skillNameOf, rawName, if_neg hname]

/-- Witness for C10: the concrete project-scope install of skill `s` for
the `claude-code` agent reports exactly the path `getInstallPath`
computes. -/
theorem c10_install_remove_path_agreement_witness :
    (installSkillForAgentM scEnv 20 fsBase skillS claudeConfig optsP).1.path
      = "/r/p/.claude/skills/s" :=
  c10_install_remove_path_agreement scEnv 20 fsBase skillS claudeConfig optsP
    "/r/p/.claude/skills/s" (by decide) (by rfl)

/-! ## C6: the installer never throws; symlink failure is not an error -/

/-- Every error message of the filesystem model is non-empty. -/
theorem FsError.message_ne (e : FsError) : ¬(e.message = "") := by
  cases e <;> decide

/-- Shape of every result: a failed result always carries a non-empty
error message, a successful one never does. -/
theorem installM_result_shape (env : Env) (fuel : Nat) (fs : FS) (skill : Skill)
    (agent : AgentConfig) (opts : InstallOptions) :
    ((installSkillForAgentM env fuel fs skill agent opts).1.success = false →
      ∃ m, (installSkillForAgentM env fuel fs skill agent opts).1.error = some m ∧ ¬(m = "")) ∧
    ((installSkillForAgentM env fuel fs skill agent opts).1.success = true →
      (installSkillForAgentM env fuel fs skill agent opts).1.error = none) := by
  rw [installSkillForAgentM]
  split
  · exact ⟨fun _ => ⟨travMsg, rfl, by decide⟩, fun h => by simp at h⟩
  · split
    · exact ⟨fun _ => ⟨travMsg, rfl, by decide⟩, fun h => by simp at h⟩
    · split
      · rename_i e fs1 heq
        exact ⟨fun _ => ⟨e.message, rfl, FsError.message_ne e⟩, fun h => by simp at h⟩
      · split
        · split
          · rename_i e fs2 heq
            exact ⟨fun _ => ⟨e.message, rfl, FsError.message_ne e⟩, fun h => by simp at h⟩
          · exact ⟨fun h => by simp at h, fun _ => rfl⟩
        · split
          · exact ⟨fun h => by simp at h, fun _ => rfl⟩
          · split
            · rename_i e fs3 heq
              exact ⟨fun _ => ⟨e.message, rfl, FsError.message_ne e⟩, fun h => by simp at h⟩
            · exact ⟨fun h => by simp at h, fun _ => rfl⟩

/-- When the gates pass, the canonical copy succeeds, the symlink attempt
reports failure, and the fallback copy succeeds, the result is a success
carrying the informational `symlinkFailed` flag. -/
theorem installM_symlink_fallback (env : Env) (fuel : Nat) (fs : FS) (skill : Skill)
    (agent : AgentConfig) (opts : InstallOptions) (fs1 fs2 : FS)
    (hs1 : isPathSafe env (canonicalBaseOf env skill agent opts)
      (canonicalDirOf env skill agent opts) = true)
    (hs2 : isPathSafe env (agentBaseOf env skill agent opts)
      (agentDirOf env skill agent opts) = true)
    (hns : opts.noSymlink.getD false = false)
    (hcp : copyPhase env fuel fs skill.path (canonicalDirOf env skill agent opts) = (.ok (), fs1))
    (hcs : createSymlinkM env fuel fs1 (canonicalDirOf env skill agent opts)
      (agentDirOf env skill agent opts) = (false, fs2))
    (hfb : (copyPhase env fuel fs2 skill.path (agentDirOf env skill agent opts)).1 = .ok ()) :
    (installSkillForAgentM env fuel fs skill agent opts).1 =
      { success := true, path := agentDirOf env skill agent opts,
        canonicalPath := some (canonicalDirOf env skill agent opts),
        symlinkFailed := some true } := by
  rw [canonicalBaseOf] at hs1
  rw [canonicalDirOf] at hs1 hcp hcs ⊢
  rw [agentBaseOf] at hs2
  rw [agentDirOf] at hs2 hcs hfb ⊢
  rw [installSkillForAgentM]
  split
  · rename_i h
    rw [hs1] at h
    simp at h
  · split
    · rename_i h
      rw [hs2] at h
      simp at h
    · split
      · rename_i e fs1x heq
        rw [hcp] at heq
        cases heq
      · rename_i u fs1x heq
        rw [hcp] at heq
        have h2 : fs1 = fs1x := congrArg Prod.snd heq
        subst h2
        split
        · rename_i h
          rw [hns] at h
          cases h
        · split
          · rename_i fs2x heq2
            rw [hcs] at heq2
            cases heq2
          · rename_i fs2x heq2
            rw [hcs] at heq2
            have h4 : fs2 = fs2x := congrArg Prod.snd heq2
            subst h4
            split
            · rename_i e fs3x heq3
              rw [heq3] at hfb
              cases hfb
            · rfl

/-- C6: `installSkillForAgent` never throws — every result reports the
computed agent directory as `path`; a failed result always carries a
non-empty error message and a successful one carries none; and when the
canonical copy succeeds, the symlink attempt fails, and the fallback
copy into the agent directory succeeds, the result is a success with the
informational `symlinkFailed` flag set (symlink failure alone is not an
error). -/
theorem c6_never_throws_and_fallback (env : Env) (fuel : Nat) (fs : FS) (skill : Skill)
    (agent : AgentConfig) (opts : InstallOptions) :
    ((installSkillForAgentM env fuel fs skill agent opts).1.path
      = agentDirOf env skill agent opts) ∧
    ((installSkillForAgentM env fuel fs skill agent opts).1.success = false →
      ∃ m, (installSkillForAgentM env fuel fs skill agent opts).1.error = some m ∧ ¬(m = "")) ∧
    ((installSkillForAgentM env fuel fs skill agent opts).1.success = true →
      (installSkillForAgentM env fuel fs skill agent opts).1.error = none) ∧
    (∀ fs1 fs2,
      isPathSafe env (canonicalBaseOf env skill agent opts)
        (canonicalDirOf env skill agent opts) = true →
      isPathSafe env (agentBaseOf env skill agent opts)
        (agentDirOf env skill agent opts) = true →
      opts.noSymlink.getD false = false →
      copyPhase env fuel fs skill.path (canonicalDirOf env skill agent opts) = (.ok (), fs1) →
      createSymlinkM env fuel fs1 (canonicalDirOf env skill agent opts)
        (agentDirOf env skill agent opts) = (false, fs2) →
      (copyPhase env fuel fs2 skill.path (agentDirOf env skill agent opts)).1 = .ok () →
      (installSkillForAgentM env fuel fs skill agent opts).1 =
        { success := true, path := agentDirOf env skill agent opts,
          canonicalPath := some (canonicalDirOf env skill agent opts),
          symlinkFailed := some true }) :=
  ⟨installM_path_eq env fuel fs skill agent opts,
   (installM_result_shape env fuel fs skill agent opts).1,
   (installM_result_shape env fuel fs skill agent opts).2,
   fun fs1 fs2 h1 h2 h3 h4 h5 h6 =>
     installM_symlink_fallback env fuel fs skill agent opts fs1 fs2 h1 h2 h3 h4 h5 h6⟩

/-- Witness for C6: on a host that refuses symlink creation, the install
of skill `s` for the `claude-code` agent returns success with
`symlinkFailed` set; every hypothesis is discharged by evaluation. -/
theorem c6_never_throws_and_fallback_witness :
    (installSkillForAgentM scEnv 20 fsNoSym skillS claudeConfig optsP).1 =
      { success := true, path := agentDirOf scEnv skillS claudeConfig optsP,
        canonicalPath := some (canonicalDirOf scEnv skillS claudeConfig optsP),
        symlinkFailed := some true } :=
  (c6_never_throws_and_fallback scEnv 20 fsNoSym skillS claudeConfig optsP).2.2.2
    (copyPhase scEnv 20 fsNoSym "/r/src" (canonicalDirOf scEnv skillS claudeConfig optsP)).2
    (createSymlinkM scEnv 20
      (copyPhase scEnv 20 fsNoSym "/r/src" (canonicalDirOf scEnv skillS claudeConfig optsP)).2
      (canonicalDirOf scEnv skillS claudeConfig optsP)
      (agentDirOf scEnv skillS claudeConfig optsP)).2
    (by decide) (by decide) (by decide) (by rfl) (by rfl) (by rfl)

/-! ## Finite-map lemmas for the filesystem -/

/-- `find?` over an append tries the left list first. -/
theorem find?_append_cases {α : Type} (l₁ l₂ : List α) (p : α → Bool) :
    (l₁ ++ l₂).find? p = match l₁.find? p with
      | some x => some x
      | none => l₂.find? p := by
  induction l₁ with
  | nil => simp
  | cons a t ih =>
    by_cases ha : p a
    · simp [List.find?_cons, ha]
    · simp [List.find?_cons, ha, ih]

/-- `find?` misses a filter that removed every candidate. -/
theorem find?_filter_incompat {α : Type} (l : List α) (p q : α → Bool)
    (h : ∀ x, p x = true → q x = false) : (l.filter q).find? p = none := by
  induction l with
  | nil => rfl
  | cons a t ih =>
    by_cases hq : q a
    · rw [List.filter_cons_of_pos hq]
      have hp : p a = false := by
        cases hpa : p a with
        | false => rfl
        | true => rw [h a hpa] at hq; cases hq
      simp [List.find?_cons, hp, ih]
    · rw [List.filter_cons_of_neg (by simpa using hq)]
      exact ih

/-- `find?` ignores a filter that kept every candidate. -/
theorem find?_filter_compat {α : Type} (l : List α) (p q : α → Bool)
    (h : ∀ x, p x = true → q x = true) : (l.filter q).find? p = l.find? p := by
  induction l with
  | nil => rfl
  | cons a t ih =>
    by_cases hq : q a
    · rw [List.filter_cons_of_pos hq]
      by_cases hp : p a
      · simp [List.find?_cons, hp]
      · simp [List.find?_cons, hp, ih]
    · rw [List.filter_cons_of_neg (by simpa using hq)]
      have hp : p a = false := by
        cases hpa : p a with
        | false => rfl
        | true => exact absurd (h a hpa) hq
      simp [List.find?_cons, hp, ih]

/-- Looking up after `setN`. -/
theorem lookupN_setN (fs : FS) (k : List String) (v : FNode) (j : String) (k' : List String) :
    lookupN (setN fs k v j) k' = if k' = k then some v else lookupN fs k' := by
  rw [lookupN, lookupN, setN]
  simp only []
  rw [find?_append_cases]
  by_cases hk : k' = k
  · subst hk
    rw [find?_filter_incompat _ _ _ (fun kv hkv => by
      simp only [decide_eq_true_eq] at hkv
      simp [hkv])]
    simp [List.find?]
  · rw [find?_filter_compat _ _ _ (fun kv hkv => by
      simp only [decide_eq_true_eq] at hkv
      simp [hkv, hk])]
    cases hf : fs.nodes.find? (fun kv => (kv.1 = k' : Bool)) with
    | none => simp [List.find?, Ne.symm hk, hk]
    | some kv => simp [hk]

/-- Looking up after `delUnder`. -/
theorem lookupN_delUnder (fs : FS) (k : List String) (j : String) (k' : List String) :
    lookupN (delUnder fs k j) k' = if k.isPrefixOf k' then none else lookupN fs k' := by
  rw [lookupN, lookupN, delUnder]
  simp only []
  by_cases hk : k.isPrefixOf k' = true
  · rw [if_pos hk]
    rw [find?_filter_incompat _ _ _ (fun kv hkv => by
      simp only [decide_eq_true_eq] at hkv
      simp [hkv, hk])]
    rfl
  · rw [if_neg hk]
    rw [find?_filter_compat _ _ _ (fun kv hkv => by
      simp only [decide_eq_true_eq] at hkv
      subst hkv
      simp only [Bool.not_eq_true] at hk
      simp [hk])]

/-- A link-free filesystem stores no symlink node. -/
theorem linkFreeFS_lookup (fs : FS) (h : linkFreeFS fs = true) (k : List String) (t : String) :
    ¬(lookupN fs k = some (.link t)) := by
  intro hl
  rw [lookupN] at hl
  cases hf : fs.nodes.find? (fun kv => (kv.1 = k : Bool)) with
  | none => rw [hf] at hl; cases hl
  | some kv =>
    rw [hf] at hl
    simp only [Option.map_some', Option.some.injEq] at hl
    have hmem := List.mem_of_find?_eq_some hf
    rw [linkFreeFS, List.all_eq_true] at h
    have h2 := h kv hmem
    rw [hl] at h2
    simp at h2

/-- `setN` with a non-link node preserves link-freedom. -/
theorem linkFreeFS_setN (fs : FS) (k : List String) (v : FNode) (j : String)
    (h : linkFreeFS fs = true)
    (hv : (match v with | FNode.link _ => false | _ => true) = true) :
    linkFreeFS (setN fs k v j) = true := by
  rw [linkFreeFS, List.all_eq_true] at h ⊢
  rw [setN]
  simp only []
  intro kv hkv
  rcases List.mem_append.mp hkv with h1 | h2
  · exact h kv (List.mem_filter.mp h1).1
  · rw [List.mem_singleton.mp h2]
    exact hv

/-- `delUnder` preserves link-freedom. -/
theorem linkFreeFS_delUnder (fs : FS) (k : List String) (j : String)
    (h : linkFreeFS fs = true) : linkFreeFS (delUnder fs k j) = true := by
  rw [linkFreeFS, List.all_eq_true] at h ⊢
  rw [delUnder]
  simp only []
  intro kv hkv
  exact h kv (List.mem_filter.mp hkv).1

/-- `setN` with a normal key preserves key well-formedness. -/
theorem wfFS_setN (fs : FS) (k : List String) (v : FNode) (j : String)
    (h : wfFS fs = true) (hk : k.all normalSeg = true) :
    wfFS (setN fs k v j) = true := by
  rw [wfFS, List.all_eq_true] at h ⊢
  rw [setN]
  simp only []
  intro kv hkv
  rcases List.mem_append.mp hkv with h1 | h2
  · exact h kv (List.mem_filter.mp h1).1
  · rw [List.mem_singleton.mp h2]
    exact hk

/-- `delUnder` preserves key well-formedness. -/
theorem wfFS_delUnder (fs : FS) (k : List String) (j : String)
    (h : wfFS fs = true) : wfFS (delUnder fs k j) = true := by
  rw [wfFS, List.all_eq_true] at h ⊢
  rw [delUnder]
  simp only []
  intro kv hkv
  exact h kv (List.mem_filter.mp hkv).1

/-! ## Walks on link-free filesystems -/

/-- Unfolding: walking an empty segment list. -/
theorem walkSegs_nil (fs : FS) (fuel : Nat) (acc : List String) :
    walkSegs fs fuel acc [] = .ok acc := by
  cases fuel <;> rfl

/-- Unfolding: walking with exhausted fuel. -/
theorem walkSegs_zero (fs : FS) (acc : List String) (s : String) (t : List String) :
    walkSegs fs 0 acc (s :: t) = .error .eloop := rfl

/-- Unfolding: one walking step. -/
theorem walkSegs_succ (fs : FS) (fuel : Nat) (acc : List String) (s : String) (t : List String) :
    walkSegs fs (fuel + 1) acc (s :: t) =
      match lookupN fs (acc ++ [s]) with
      | none => .error .enoent
      | some (.file _) => .error .enotdir
      | some .dir => walkSegs fs fuel (acc ++ [s]) t
      | some (.link raw) => walkSegs fs fuel [] (resolveSegs acc raw ++ t) := rfl

/-- On a link-free filesystem a successful walk is purely textual. -/
theorem walkSegs_linkFree (fs : FS) (hl : linkFreeFS fs = true) :
    ∀ (fuel : Nat) (acc segs r : List String),
      walkSegs fs fuel acc segs = .ok r → r = acc ++ segs := by
  intro fuel
  induction fuel with
  | zero =>
    intro acc segs r h
    cases segs with
    | nil =>
      rw [walkSegs_nil] at h
      cases h
      simp
    | cons s t =>
      rw [walkSegs_zero] at h
      cases h
  | succ fuel ih =>
    intro acc segs r h
    cases segs with
    | nil =>
      rw [walkSegs_nil] at h
      cases h
      simp
    | cons s t =>
      rw [walkSegs_succ] at h
      cases hlk : lookupN fs (acc ++ [s]) with
      | none => rw [hlk] at h; cases h
      | some n =>
        rw [hlk] at h
        cases n with
        | file c => cases h
        | link raw => exact absurd hlk (linkFreeFS_lookup fs hl _ raw)
        | dir =>
          have h2 := ih (acc ++ [s]) t r h
          rw [h2]
          simp

/-- On a link-free filesystem a successful parent walk is the identity. -/
theorem walkParents_linkFree (fs : FS) (hl : linkFreeFS fs = true)
    (fuel : Nat) (segs r : List String) (h : walkParents fs fuel segs = .ok r) :
    r = segs := by
  rw [walkParents] at h
  cases hg : segs.getLast? with
  | none =>
    rw [hg] at h
    cases h
    exact (List.getLast?_eq_none_iff.mp hg).symm
  | some last =>
    rw [hg] at h
    cases hw : walkSegs fs fuel [] segs.dropLast with
    | error e => rw [hw] at h; cases h
    | ok par =>
      rw [hw] at h
      cases h
      have hpar := walkSegs_linkFree fs hl fuel [] segs.dropLast par hw
      rw [hpar]
      have hne : segs ≠ [] := by
        intro h0
        rw [h0] at hg
        cases hg
      have hgl := List.getLast?_eq_getLast_of_ne_nil hne
      rw [hg] at hgl
      injection hgl with hgl
      rw [hgl]
      simpa using List.dropLast_append_getLast hne

/-- Unfolding: `lstat` on a non-root path. -/
theorem lstatM_cons (env : Env) (fuel : Nat) (fs : FS) (p : String) (s : String)
    (t : List String) (hsg : segsR env p = s :: t) :
    lstatM env fuel fs p =
      match walkParents fs fuel (s :: t) with
      | .error e => .error e
      | .ok full =>
        match lookupN fs full with
        | none => .error .enoent
        | some n => .ok n := by
  rw [lstatM, hsg]

/-- Unfolding: `lstat` at the root. -/
theorem lstatM_root (env : Env) (fuel : Nat) (fs : FS) (p : String)
    (hsg : segsR env p = []) : lstatM env fuel fs p = .ok .dir := by
  rw [lstatM, hsg]

/-- On a link-free filesystem `lstat` never reports a symlink. -/
theorem lstatM_linkFree (env : Env) (fuel : Nat) (fs : FS) (hl : linkFreeFS fs = true)
    (p : String) (raw : String) : ¬(lstatM env fuel fs p = .ok (.link raw)) := by
  intro h
  cases hsg : segsR env p with
  | nil =>
    rw [lstatM_root env fuel fs p hsg] at h
    cases h
  | cons s t =>
    rw [lstatM_cons env fuel fs p s t hsg] at h
    cases hw : walkParents fs fuel (s :: t) with
    | error e => rw [hw] at h; cases h
    | ok full =>
      rw [hw] at h
      simp only [] at h
      cases hlk : lookupN fs full with
      | none => rw [hlk] at h; cases h
      | some n =>
        rw [hlk] at h
        cases n with
        | file c => cases h
        | dir => cases h
        | link r2 =>
          cases h
          exact absurd hlk (linkFreeFS_lookup fs hl full raw)


/-! ## Prefix utilities for the confinement proofs -/

/-- A prefix of a list extended by one element is a prefix of the list or
the whole extension. -/
theorem pre_concat {α : Type} (k X : List α) (a : α) (h : List.IsPrefix k (X ++ [a])) :
    List.IsPrefix k X ∨ k = X ++ [a] := by
  by_cases hlen : k.length ≤ X.length
  · exact Or.inl (List.prefix_of_prefix_length_le h (List.prefix_append X [a]) hlen)
  · refine Or.inr (List.IsPrefix.eq_of_length h ?_)
    have h2 := h.length_le
    rw [List.length_append, List.length_singleton] at h2 ⊢
    omega

/-- A strict extension is never a prefix of its base. -/
theorem not_concat_pre {α : Type} (X : List α) (a : α) : ¬ List.IsPrefix (X ++ [a]) X := by
  intro h
  have h2 := h.length_le
  simp only [List.length_append, List.length_singleton] at h2
  omega

/-- A prefix of a list satisfying a predicate everywhere satisfies it too. -/
theorem all_of_pre (p : String → Bool) (k X : List String) (h : List.IsPrefix k X)
    (hX : X.all p = true) : k.all p = true := by
  rw [List.all_eq_true] at hX ⊢
  exact fun x hx => hX x (h.sublist.mem hx)

/-- `dropLast` is a prefix. -/
theorem dropLast_pre {α : Type} (l : List α) : List.IsPrefix l.dropLast l := by
  cases l with
  | nil => exact List.prefix_refl []
  | cons x xs =>
    exact ⟨[(x :: xs).getLast (by simp)], List.dropLast_append_getLast (by simp)⟩

/-- Inequality through a middle point. -/
theorem ne_split {α : Type} (a b c : α) (h : ¬(a = c)) : ¬(a = b) ∨ ¬(b = c) := by
  by_cases hbc : b = c
  · exact Or.inl (fun hab => h (hab.trans hbc))
  · exact Or.inr hbc

/-! ## Joining `".."` pops the last resolved segment -/

/-- `normalize` keeps a path absolute. -/
theorem normalizeStr_abs (p : String) (hp : isAbs p = true) : isAbs (normalizeStr p) = true := by
  have hne : ¬(p = "") := by
    intro h0
    rw [h0] at hp
    simp [isAbs, isAbsL] at hp
  rw [normalizeStr, if_neg hne]
  by_cases hbody : interSlash (collapseGo (!isAbs p) [] (piecesS p)) = ""
  · rw [if_pos hbody, hp, if_pos rfl]
    decide
  · rw [if_neg hbody, hp, if_pos rfl]
    exact isAbs_append _ _ (isAbs_append "/" _ (by decide))

/-- Joining an absolute path with a non-empty segment stays absolute. -/
theorem joinP_abs (p s : String) (hp : isAbs p = true) (hs : ¬(s = "")) :
    isAbs (joinP p s) = true := by
  have hpne : ¬(p = "") := by
    intro h0
    rw [h0] at hp
    simp [isAbs, isAbsL] at hp
  have hparts : [p, s].filter (fun z => (z ≠ "" : Bool)) = [p, s] := by
    simp [hpne, hs]
  rw [joinP, joinList, hparts, if_neg (by simp)]
  refine normalizeStr_abs _ ?_
  rw [interSlash_cons2, interSlash_one]
  exact isAbs_append _ _ (isAbs_append _ _ hp)

/-- Collapsing after appending `".."` pops the final collapsed segment
(absolute collapse; the accumulator never holds `".."`). -/
theorem collapseGo_concat_dd :
    ∀ (l acc : List String), ".." ∉ acc →
      collapseGo false acc (l ++ [".."]) = (collapseGo false acc l).dropLast := by
  intro l
  induction l with
  | nil =>
    intro acc hacc
    cases acc with
    | nil => rfl
    | cons a as =>
      have ha : ¬(a = "..") := fun h => hacc (h ▸ List.mem_cons_self a as)
      rw [List.nil_append, collapseAbs_cons_dd_cons, if_neg ha]
      show as.reverse = (a :: as).reverse.dropLast
      rw [List.reverse_cons, List.dropLast_concat]
  | cons s t ih =>
    intro acc hacc
    by_cases hs : s = "."
    · subst hs
      rw [List.cons_append, collapseGo_cons_dot, collapseGo_cons_dot]
      exact ih acc hacc
    · by_cases hss : s = ".."
      · subst hss
        cases acc with
        | nil =>
          rw [List.cons_append, collapseAbs_cons_dd_nil, collapseAbs_cons_dd_nil]
          exact ih [] hacc
        | cons a as =>
          have ha : ¬(a = "..") := fun h => hacc (h ▸ List.mem_cons_self a as)
          rw [List.cons_append, collapseAbs_cons_dd_cons, collapseAbs_cons_dd_cons,
            if_neg ha, if_neg ha]
          exact ih as (fun h => hacc (List.mem_cons_of_mem a h))
      · rw [List.cons_append, collapseGo_cons_seg false acc (t ++ [".."]) s hs hss,
          collapseGo_cons_seg false acc t s hs hss]
        refine ih (s :: acc) ?_
        intro h
        rcases List.mem_cons.mp h with h1 | h2
        · exact hss h1.symm
        · exact hacc h2

/-- Absolute collapse of a list extended by `".."`. -/
theorem collapseAbs_concat_dd (l : List String) :
    collapseAbs (l ++ [".."]) = (collapseAbs l).dropLast :=
  collapseGo_concat_dd l [] (by simp)

/-- Resolving the join of an absolute path and `".."` drops the last
resolved segment. -/
theorem segsR_join_dd (env : Env) (p : String) (hp : isAbs p = true) :
    segsR env (joinP p "..") = (segsR env p).dropLast := by
  have hpne : p ≠ "" := by
    rw [str_ne_empty_iff]
    intro hd
    rw [isAbs, hd] at hp
    simp [isAbsL] at hp
  have hparts : [p, ".."].filter (fun z => (z ≠ "" : Bool)) = [p, ".."] := by
    simp [hpne]
  have hjoin : joinP p ".." = normalizeStr (p ++ "/" ++ "..") := by
    rw [joinP, joinList, hparts, if_neg (by simp)]
    rfl
  have habs : isAbs (p ++ "/" ++ "..") = true := isAbs_append _ _ (isAbs_append _ _ hp)
  have hne : (p ++ "/" ++ "..") ≠ "" := by
    rw [str_ne_empty_iff, String.data_append]
    intro hh
    have h2 := List.append_eq_nil.mp hh
    exact (by decide : ¬((".." : String).data = [])) h2.2
  have htrail : endsSlash (p ++ "/" ++ "..") = false := by
    rw [endsSlash, String.data_append]
    rw [List.getLast?_append_of_ne_nil _ (by decide : (".." : String).data ≠ [])]
    decide
  have hpieces : piecesS (p ++ "/" ++ "..") = piecesS p ++ [".."] := by
    rw [piecesS_append]
    rfl
  have hsegs : collapseGo (!isAbs (p ++ "/" ++ "..")) [] (piecesS (p ++ "/" ++ ".."))
      = (collapseAbs (piecesS p)).dropLast := by
    rw [habs, Bool.not_true, hpieces, ← collapseAbs, collapseAbs_concat_dd]
  have hCwf : ∀ x ∈ (collapseAbs (piecesS p)).dropLast, normalSeg x = true := by
    intro x hx
    have hx2 : x ∈ collapseAbs (piecesS p) := (dropLast_pre _).sublist.mem hx
    rcases collapseGo_mem _ [] x hx2 with h3 | h4
    · simp at h3
    · obtain ⟨hmem, hdot, hdd⟩ := h4
      obtain ⟨hne2, hns⟩ := piecesS_mem p x hmem
      exact normalSeg_of x hne2 hdot hdd hns
  have hjoin2 : joinP p ".." = pathStr (collapseAbs (piecesS p)).dropLast := by
    by_cases hC : interSlash (collapseAbs (piecesS p)).dropLast = ""
    · have hCnil : (collapseAbs (piecesS p)).dropLast = [] := by
        cases hCc : (collapseAbs (piecesS p)).dropLast with
        | nil => rfl
        | cons y ys =>
          exfalso
          refine interSlash_ne_empty (y :: ys) (by simp) ?_ (by rw [← hCc]; exact hC)
          intro z hz
          have := hCwf z (by rw [hCc]; exact hz)
          exact (normalSeg_parts z this).1
      rw [hjoin, normalizeStr, if_neg hne, if_pos (by rw [hsegs, hCnil]; rfl), habs,
        if_pos rfl, hCnil, pathStr, interSlash_nil, String.append_empty]
    · rw [hjoin, normalizeStr, if_neg hne, if_neg (by rw [hsegs]; exact hC), hsegs, habs,
        htrail, if_pos rfl, if_neg (by simp : ¬(false = true)), String.append_empty, pathStr]
  rw [hjoin2, segsR_pathStr env _ hCwf, segsR, if_pos hp]


/-! ## Changed-key characterizations of the filesystem operations -/

/-- Unfolding: `mkdirpGo` on an empty segment list. -/
theorem mkdirpGo_nil (fs : FS) (fuel : Nat) (acc : List String) :
    mkdirpGo fs fuel acc [] = (.ok (), fs) := by
  cases fuel <;> rfl

/-- Unfolding: `mkdirpGo` with exhausted fuel. -/
theorem mkdirpGo_zero (fs : FS) (acc : List String) (s : String) (t : List String) :
    mkdirpGo fs 0 acc (s :: t) = (.error .eloop, fs) := rfl

/-- Unfolding: one `mkdirpGo` step. -/
theorem mkdirpGo_succ (fs : FS) (fuel : Nat) (acc : List String) (s : String)
    (t : List String) :
    mkdirpGo fs (fuel + 1) acc (s :: t) =
      match lookupN fs (acc ++ [s]) with
      | none => mkdirpGo (setN fs (acc ++ [s]) .dir ("mkdir " ++ pathStr (acc ++ [s])))
          fuel (acc ++ [s]) t
      | some .dir => mkdirpGo fs fuel (acc ++ [s]) t
      | some (.file _) => (.error .eexist, fs)
      | some (.link raw) => mkdirpGo fs fuel [] (resolveSegs acc raw ++ t) := rfl

/-- On a link-free filesystem `mkdirpGo` only touches keys strictly along
the remaining chain, keeps the filesystem link-free, and keeps the keys
well-formed when the chain is. -/
theorem mkdirpGo_spec :
    ∀ (fuel : Nat) (fs : FS) (acc segs : List String), linkFreeFS fs = true →
      (∀ k, ¬(lookupN (mkdirpGo fs fuel acc segs).2 k = lookupN fs k) →
        List.IsPrefix acc k ∧ List.IsPrefix k (acc ++ segs)) ∧
      linkFreeFS (mkdirpGo fs fuel acc segs).2 = true ∧
      (wfFS fs = true → (acc ++ segs).all normalSeg = true →
        wfFS (mkdirpGo fs fuel acc segs).2 = true) := by
  intro fuel
  induction fuel with
  | zero =>
    intro fs acc segs hl
    cases segs with
    | nil =>
      rw [mkdirpGo_nil]
      exact ⟨fun k hk => absurd rfl hk, hl, fun hw _ => hw⟩
    | cons s t =>
      rw [mkdirpGo_zero]
      exact ⟨fun k hk => absurd rfl hk, hl, fun hw _ => hw⟩
  | succ fuel ih =>
    intro fs acc segs hl
    cases segs with
    | nil =>
      rw [mkdirpGo_nil]
      exact ⟨fun k hk => absurd rfl hk, hl, fun hw _ => hw⟩
    | cons s t =>
      rw [mkdirpGo_succ]
      cases hlk : lookupN fs (acc ++ [s]) with
      | none =>
        simp only []
        have hl2 : linkFreeFS (setN fs (acc ++ [s]) FNode.dir
            ("mkdir " ++ pathStr (acc ++ [s]))) = true :=
          linkFreeFS_setN fs _ _ _ hl rfl
        obtain ⟨hreg, hlf, hwf⟩ := ih (setN fs (acc ++ [s]) FNode.dir
          ("mkdir " ++ pathStr (acc ++ [s]))) (acc ++ [s]) t hl2
        refine ⟨fun k hk => ?_, hlf, fun hw hall => ?_⟩
        · rcases ne_split _ (lookupN (setN fs (acc ++ [s]) FNode.dir
            ("mkdir " ++ pathStr (acc ++ [s]))) k) _ hk with h1 | h2
          · obtain ⟨hp1, hp2⟩ := hreg k h1
            refine ⟨(List.prefix_append acc [s]).trans hp1, ?_⟩
            rw [show acc ++ s :: t = (acc ++ [s]) ++ t by simp]
            exact hp2
          · rw [lookupN_setN] at h2
            by_cases hkk : k = acc ++ [s]
            · subst hkk
              refine ⟨List.prefix_append acc [s], ?_⟩
              rw [show acc ++ s :: t = (acc ++ [s]) ++ t by simp]
              exact List.prefix_append _ _
            · rw [if_neg hkk] at h2
              exact absurd rfl h2
        · refine hwf (wfFS_setN fs _ _ _ hw ?_) ?_
          · refine all_of_pre _ _ _ ?_ hall
            rw [show acc ++ s :: t = (acc ++ [s]) ++ t by simp]
            exact List.prefix_append _ _
          · rw [show (acc ++ [s]) ++ t = acc ++ s :: t by simp]
            exact hall
      | some n =>
        cases n with
        | dir =>
          simp only []
          obtain ⟨hreg, hlf, hwf⟩ := ih fs (acc ++ [s]) t hl
          refine ⟨fun k hk => ?_, hlf, fun hw hall => ?_⟩
          · obtain ⟨hp1, hp2⟩ := hreg k hk
            refine ⟨(List.prefix_append acc [s]).trans hp1, ?_⟩
            rw [show acc ++ s :: t = (acc ++ [s]) ++ t by simp]
            exact hp2
          · refine hwf hw ?_
            rw [show (acc ++ [s]) ++ t = acc ++ s :: t by simp]
            exact hall
        | file c =>
          exact ⟨fun k hk => absurd rfl hk, hl, fun hw _ => hw⟩
        | link raw =>
          exact absurd hlk (linkFreeFS_lookup fs hl _ raw)

/-- On a link-free filesystem `mkdir -p` only touches ancestors of the
target (the target included), and preserves the invariants. -/
theorem mkdirp_spec (env : Env) (fuel : Nat) (fs : FS) (p : String)
    (hl : linkFreeFS fs = true) :
    (∀ k, ¬(lookupN (mkdirp env fuel fs p).2 k = lookupN fs k) →
      List.IsPrefix k (segsR env p)) ∧
    linkFreeFS (mkdirp env fuel fs p).2 = true ∧
    (wfFS fs = true → wfFS (mkdirp env fuel fs p).2 = true) := by
  rw [mkdirp]
  obtain ⟨hreg, hlf, hwf⟩ := mkdirpGo_spec fuel fs [] (segsR env p) hl
  refine ⟨fun k hk => ?_, hlf, fun hw => hwf hw ?_⟩
  · have h2 := (hreg k hk).2
    rw [List.nil_append] at h2
    exact h2
  · rw [List.nil_append, List.all_eq_true]
    exact fun x hx => segsR_wf env p x hx

/-- On a link-free filesystem `rm` only deletes at or below the resolved
target, and preserves the invariants. -/
theorem rmM_spec (env : Env) (fuel : Nat) (fs : FS) (p : String) (recursive : Bool)
    (hl : linkFreeFS fs = true) :
    (∀ k, ¬(lookupN (rmM env fuel fs p recursive).2 k = lookupN fs k) →
      List.IsPrefix (segsR env p) k ∧ lookupN (rmM env fuel fs p recursive).2 k = none) ∧
    linkFreeFS (rmM env fuel fs p recursive).2 = true ∧
    (wfFS fs = true → wfFS (rmM env fuel fs p recursive).2 = true) := by
  rw [rmM]
  cases hsg : segsR env p with
  | nil =>
    exact ⟨fun k hk => absurd rfl hk, hl, fun hw => hw⟩
  | cons s t =>
    simp only []
    cases hwp : walkParents fs fuel (s :: t) with
    | error e =>
      exact ⟨fun k hk => absurd rfl hk, hl, fun hw => hw⟩
    | ok full =>
      have hfull : full = s :: t := walkParents_linkFree fs hl fuel (s :: t) full hwp
      subst hfull
      simp only []
      cases hlk : lookupN fs (s :: t) with
      | none =>
        exact ⟨fun k hk => absurd rfl hk, hl, fun hw => hw⟩
      | some n =>
        cases n with
        | link raw => exact absurd hlk (linkFreeFS_lookup fs hl _ raw)
        | file c =>
          simp only []
          refine ⟨fun k hk => ?_, linkFreeFS_delUnder fs _ _ hl,
            fun hw => wfFS_delUnder fs _ _ hw⟩
          rw [lookupN_delUnder] at hk ⊢
          by_cases hpk : (s :: t).isPrefixOf k = true
          · exact ⟨ List.isPrefixOf_iff_prefix.mp hpk, by rw [if_pos hpk]⟩
          · rw [if_neg hpk] at hk
            exact absurd rfl hk
        | dir =>
          cases recursive with
          | false =>
            exact ⟨fun k hk => absurd rfl hk, hl, fun hw => hw⟩
          | true =>
            rw [if_pos rfl]
            refine ⟨fun k hk => ?_, linkFreeFS_delUnder fs _ _ hl,
              fun hw => wfFS_delUnder fs _ _ hw⟩
            rw [lookupN_delUnder] at hk ⊢
            by_cases hpk : (s :: t).isPrefixOf k = true
            · exact ⟨ List.isPrefixOf_iff_prefix.mp hpk, by rw [if_pos hpk]⟩
            · rw [if_neg hpk] at hk
              exact absurd rfl hk

/-- A failed `symlink` leaves the filesystem untouched. -/
theorem symlinkM_error_eq (env : Env) (fuel : Nat) (fs : FS) (target linkPath : String)
    (e : FsError) (fs2 : FS)
    (h : symlinkM env fuel fs target linkPath = (.error e, fs2)) : fs2 = fs := by
  rw [symlinkM] at h
  split at h
  · exact (congrArg Prod.snd h).symm
  · split at h
    · exact (congrArg Prod.snd h).symm
    · split at h
      · exact (congrArg Prod.snd h).symm
      · split at h
        · exact (congrArg Prod.snd h).symm
        · have h2 := congrArg Prod.fst h
          simp at h2

/-- On a link-free filesystem `symlink` only touches the resolved link
path, and preserves key well-formedness. -/
theorem symlinkM_spec (env : Env) (fuel : Nat) (fs : FS) (target linkPath : String)
    (hl : linkFreeFS fs = true) :
    (∀ k, ¬(lookupN (symlinkM env fuel fs target linkPath).2 k = lookupN fs k) →
      k = segsR env linkPath) ∧
    (wfFS fs = true → wfFS (symlinkM env fuel fs target linkPath).2 = true) := by
  rw [symlinkM]
  split
  · exact ⟨fun k hk => absurd rfl hk, fun hw => hw⟩
  · cases hsg : segsR env linkPath with
    | nil =>
      exact ⟨fun k hk => absurd rfl hk, fun hw => hw⟩
    | cons s t =>
      simp only []
      cases hwp : walkParents fs fuel (s :: t) with
      | error e =>
        exact ⟨fun k hk => absurd rfl hk, fun hw => hw⟩
      | ok full =>
        have hfull : full = s :: t := walkParents_linkFree fs hl fuel (s :: t) full hwp
        subst hfull
        simp only []
        cases hlk : lookupN fs (s :: t) with
        | some n =>
          exact ⟨fun k hk => absurd rfl hk, fun hw => hw⟩
        | none =>
          simp only []
          refine ⟨fun k hk => ?_, fun hw => ?_⟩
          · rw [lookupN_setN] at hk
            by_cases hkk : k = s :: t
            · exact hkk
            · rw [if_neg hkk] at hk
              exact absurd rfl hk
          · refine wfFS_setN fs _ _ _ hw ?_
            rw [← hsg, List.all_eq_true]
            exact fun x hx => segsR_wf env linkPath x hx

/-- On a link-free filesystem `cp` only touches the resolved destination,
and preserves the invariants. -/
theorem cpM_spec (env : Env) (fuel : Nat) (fs : FS) (src dest : String)
    (hl : linkFreeFS fs = true) :
    (∀ k, ¬(lookupN (cpM env fuel fs src dest).2 k = lookupN fs k) →
      k = segsR env dest) ∧
    linkFreeFS (cpM env fuel fs src dest).2 = true ∧
    (wfFS fs = true → wfFS (cpM env fuel fs src dest).2 = true) := by
  rw [cpM]
  cases hst : lstatM env fuel fs src with
  | error e =>
    exact ⟨fun k hk => absurd rfl hk, hl, fun hw => hw⟩
  | ok n =>
    cases n with
    | link raw => exact absurd hst (lstatM_linkFree env fuel fs hl src raw)
    | dir =>
      exact ⟨fun k hk => absurd rfl hk, hl, fun hw => hw⟩
    | file c =>
      simp only []
      cases hsg : segsR env dest with
      | nil =>
        exact ⟨fun k hk => absurd rfl hk, hl, fun hw => hw⟩
      | cons s t =>
        simp only []
        cases hwp : walkParents fs fuel (s :: t) with
        | error e =>
          exact ⟨fun k hk => absurd rfl hk, hl, fun hw => hw⟩
        | ok full =>
          have hfull : full = s :: t := walkParents_linkFree fs hl fuel (s :: t) full hwp
          subst hfull
          simp only []
          cases hlk : lookupN fs (s :: t) with
          | some n2 =>
            cases n2 with
            | dir =>
              exact ⟨fun k hk => absurd rfl hk, hl, fun hw => hw⟩
            | file c2 =>
              refine ⟨fun k hk => ?_, linkFreeFS_setN fs _ _ _ hl rfl, fun hw => ?_⟩
              · rw [lookupN_setN] at hk
                by_cases hkk : k = s :: t
                · exact hkk
                · rw [if_neg hkk] at hk
                  exact absurd rfl hk
              · refine wfFS_setN fs _ _ _ hw ?_
                rw [← hsg, List.all_eq_true]
                exact fun x hx => segsR_wf env dest x hx
            | link raw => exact absurd hlk (linkFreeFS_lookup fs hl _ raw)
          | none =>
            refine ⟨fun k hk => ?_, linkFreeFS_setN fs _ _ _ hl rfl, fun hw => ?_⟩
            · rw [lookupN_setN] at hk
              by_cases hkk : k = s :: t
              · exact hkk
              · rw [if_neg hkk] at hk
                exact absurd rfl hk
            · refine wfFS_setN fs _ _ _ hw ?_
              rw [← hsg, List.all_eq_true]
              exact fun x hx => segsR_wf env dest x hx

/-- On a link-free filesystem the symlink-then-link tail of
`createSymlink` only touches ancestors of the link path (the link path
included); on failure it leaves the filesystem link-free, and it always
keeps keys well-formed. -/
theorem finishSymlink_spec (env : Env) (fuel : Nat) (fs : FS) (target linkPath : String)
    (hl : linkFreeFS fs = true) (habs : isAbs linkPath = true) :
    (∀ k, ¬(lookupN (finishSymlink env fuel fs target linkPath).2 k = lookupN fs k) →
      List.IsPrefix k (segsR env linkPath)) ∧
    ((finishSymlink env fuel fs target linkPath).1 = false →
      linkFreeFS (finishSymlink env fuel fs target linkPath).2 = true) ∧
    (wfFS fs = true → wfFS (finishSymlink env fuel fs target linkPath).2 = true) := by
  have hdd : segsR env (joinP linkPath "..") = (segsR env linkPath).dropLast :=
    segsR_join_dd env linkPath habs
  obtain ⟨hreg1, hlf1, hwf1⟩ := mkdirp_spec env fuel fs (joinP linkPath "..") hl
  rw [finishSymlink]
  split
  · rename_i e fs1 heq
    rw [heq] at hreg1 hlf1 hwf1
    refine ⟨fun k hk => ?_, fun _ => hlf1, fun hw => hwf1 hw⟩
    have h3 := hreg1 k hk
    rw [hdd] at h3
    exact h3.trans (dropLast_pre _)
  · rename_i u fs1 heq
    rw [heq] at hreg1 hlf1 hwf1
    obtain ⟨hreg2, hwf2⟩ := symlinkM_spec env fuel fs1
      (relativeP env (joinP linkPath "..") target) linkPath hlf1
    split
    · rename_i e fs2 heq2
      have hfs2 : fs2 = fs1 := symlinkM_error_eq env fuel fs1 _ linkPath e fs2 heq2
      subst hfs2
      refine ⟨fun k hk => ?_, fun _ => hlf1, fun hw => hwf1 hw⟩
      have h3 := hreg1 k hk
      rw [hdd] at h3
      exact h3.trans (dropLast_pre _)
    · rename_i u2 fs2 heq2
      rw [heq2] at hreg2 hwf2
      refine ⟨fun k hk => ?_, fun hff => ?_, fun hw => hwf2 (hwf1 hw)⟩
      · rcases ne_split _ (lookupN fs1 k) _ hk with h1 | h2
        · rw [hreg2 k h1]
        · have h3 := hreg1 k h2
          rw [hdd] at h3
          exact h3.trans (dropLast_pre _)
      · simp at hff

/-- On a link-free filesystem `createSymlink` only touches ancestors of
the link path or keys below it that it leaves deleted; on failure the
filesystem stays link-free, and keys stay well-formed. -/
theorem createSymlinkM_spec (env : Env) (fuel : Nat) (fs : FS) (target linkPath : String)
    (hl : linkFreeFS fs = true) (habs : isAbs linkPath = true) :
    (∀ k, ¬(lookupN (createSymlinkM env fuel fs target linkPath).2 k = lookupN fs k) →
      List.IsPrefix k (segsR env linkPath) ∨
      (List.IsPrefix (segsR env linkPath) k ∧
        lookupN (createSymlinkM env fuel fs target linkPath).2 k = none)) ∧
    ((createSymlinkM env fuel fs target linkPath).1 = false →
      linkFreeFS (createSymlinkM env fuel fs target linkPath).2 = true) ∧
    (wfFS fs = true → wfFS (createSymlinkM env fuel fs target linkPath).2 = true) := by
  rw [createSymlinkM]
  cases hst : lstatM env fuel fs linkPath with
  | error e =>
    simp only []
    obtain ⟨hreg, hff, hwf⟩ := finishSymlink_spec env fuel fs target linkPath hl habs
    exact ⟨fun k hk => Or.inl (hreg k hk), hff, hwf⟩
  | ok n =>
    cases n with
    | link et => exact absurd hst (lstatM_linkFree env fuel fs hl linkPath et)
    | dir =>
      simp only []
      obtain ⟨hreg1, hlf1, hwf1⟩ := rmM_spec env fuel fs linkPath true hl
      obtain ⟨hreg2, hff2, hwf2⟩ := finishSymlink_spec env fuel
        (rmM env fuel fs linkPath true).2 target linkPath hlf1 habs
      refine ⟨fun k hk => ?_, hff2, fun hw => hwf2 (hwf1 hw)⟩
      by_cases hmid : lookupN (finishSymlink env fuel (rmM env fuel fs linkPath true).2
          target linkPath).2 k = lookupN (rmM env fuel fs linkPath true).2 k
      · have h1 : ¬(lookupN (rmM env fuel fs linkPath true).2 k = lookupN fs k) :=
          fun h => hk (hmid.trans h)
        obtain ⟨hp, hnone⟩ := hreg1 k h1
        exact Or.inr ⟨hp, hmid.trans hnone⟩
      · exact Or.inl (hreg2 k hmid)
    | file c =>
      simp only []
      obtain ⟨hreg1, hlf1, hwf1⟩ := rmM_spec env fuel fs linkPath true hl
      obtain ⟨hreg2, hff2, hwf2⟩ := finishSymlink_spec env fuel
        (rmM env fuel fs linkPath true).2 target linkPath hlf1 habs
      refine ⟨fun k hk => ?_, hff2, fun hw => hwf2 (hwf1 hw)⟩
      by_cases hmid : lookupN (finishSymlink env fuel (rmM env fuel fs linkPath true).2
          target linkPath).2 k = lookupN (rmM env fuel fs linkPath true).2 k
      · have h1 : ¬(lookupN (rmM env fuel fs linkPath true).2 k = lookupN fs k) :=
          fun h => hk (hmid.trans h)
        obtain ⟨hp, hnone⟩ := hreg1 k h1
        exact Or.inr ⟨hp, hmid.trans hnone⟩
      · exact Or.inl (hreg2 k hmid)

/-- Unfolding: the entry loop on an empty listing. -/
theorem copyEntries_nil (env : Env) (fuel : Nat)
    (copyRec : FS → String → String → Except FsError Unit × FS) (fs : FS)
    (src dest : String) :
    copyEntries env fuel copyRec fs src dest [] = (.ok (), fs) := rfl

/-- Unfolding: one step of the entry loop. -/
theorem copyEntries_cons (env : Env) (fuel : Nat)
    (copyRec : FS → String → String → Except FsError Unit × FS) (fs : FS)
    (src dest : String) (name : String) (node : FNode) (rest : List (String × FNode)) :
    copyEntries env fuel copyRec fs src dest ((name, node) :: rest) =
      if isExcluded name then copyEntries env fuel copyRec fs src dest rest
      else
        match (if node.isDir then copyRec fs (joinP src name) (joinP dest name)
               else cpM env fuel fs (joinP src name) (joinP dest name)) with
        | (.error e, fs1) => (.error e, fs1)
        | (.ok _, fs1) => copyEntries env fuel copyRec fs1 src dest rest := rfl

/-- A successful `readdir` lists the children of some resolved key. -/
theorem readdirM_ok (env : Env) (fuel : Nat) (fs : FS) (p : String)
    (entries : List (String × FNode)) (h : readdirM env fuel fs p = .ok entries) :
    ∃ full, entries = childrenOf fs full := by
  rw [readdirM] at h
  cases hr : resolveFull fs fuel (segsR env p) with
  | error e => rw [hr] at h; cases h
  | ok pr =>
    obtain ⟨full, n⟩ := pr
    rw [hr] at h
    cases n with
    | dir =>
      simp only [] at h
      injection h with h
      exact ⟨full, h.symm⟩
    | file c => simp only [] at h; cases h
    | link raw => simp only [] at h; cases h

/-- On a well-formed filesystem every directory entry name is a normal
segment. -/
theorem childrenOf_wf (fs : FS) (base : List String) (hw : wfFS fs = true) :
    ∀ e ∈ childrenOf fs base, normalSeg e.1 = true := by
  intro e he
  rw [childrenOf] at he
  obtain ⟨kv, hkv, hmap⟩ := List.mem_filterMap.mp he
  cases hg : kv.1.getLast? with
  | none => rw [hg] at hmap; cases hmap
  | some n =>
    rw [hg] at hmap
    simp only [] at hmap
    by_cases hb : kv.1.dropLast = base
    · rw [if_pos hb] at hmap
      injection hmap with hmap
      have hn : e.1 = n := by rw [← hmap]
      rw [hn]
      have hmem : n ∈ kv.1 := getLast?_mem_of kv.1 n hg
      rw [wfFS, List.all_eq_true] at hw
      have h2 := hw kv hkv
      rw [List.all_eq_true] at h2
      exact h2 n hmem
    · rw [if_neg hb] at hmap
      cases hmap

/-- The entry loop writes only strictly below the destination, at
children whose first component is not excluded, or along the
destination's ancestor chain; it preserves the invariants.
Parameterized over the recursive directory copy. -/
theorem copyEntries_spec (env : Env) (fuel : Nat)
    (copyRec : FS → String → String → Except FsError Unit × FS)
    (hrec : ∀ (fs2 : FS) (s d : String), linkFreeFS fs2 = true → wfFS fs2 = true →
      isAbs d = true →
      (∀ k, ¬(lookupN (copyRec fs2 s d).2 k = lookupN fs2 k) →
        List.IsPrefix k (segsR env d) ∨
        ∃ n rest2, k = segsR env d ++ n :: rest2 ∧ isExcluded n = false) ∧
      linkFreeFS (copyRec fs2 s d).2 = true ∧ wfFS (copyRec fs2 s d).2 = true) :
    ∀ (entries : List (String × FNode)) (fs : FS) (src dest : String),
      linkFreeFS fs = true → wfFS fs = true → isAbs dest = true →
      (∀ e ∈ entries, normalSeg e.1 = true) →
      (∀ k, ¬(lookupN (copyEntries env fuel copyRec fs src dest entries).2 k = lookupN fs k) →
        List.IsPrefix k (segsR env dest) ∨
        ∃ n rest2, k = segsR env dest ++ n :: rest2 ∧ isExcluded n = false) ∧
      linkFreeFS (copyEntries env fuel copyRec fs src dest entries).2 = true ∧
      wfFS (copyEntries env fuel copyRec fs src dest entries).2 = true := by
  intro entries
  induction entries with
  | nil =>
    intro fs src dest hl hw habs hns
    rw [copyEntries_nil]
    exact ⟨fun k hk => absurd rfl hk, hl, hw⟩
  | cons e rest ih =>
    obtain ⟨name, node⟩ := e
    intro fs src dest hl hw habs hns
    rw [copyEntries_cons]
    by_cases hex : isExcluded name = true
    · rw [if_pos hex]
      exact ih fs src dest hl hw habs (fun e2 he2 => hns e2 (List.mem_cons_of_mem _ he2))
    · rw [if_neg hex]
      have hexf : isExcluded name = false := by
        cases hIE : isExcluded name with
        | false => rfl
        | true => exact absurd hIE hex
      have hnm : normalSeg name = true := hns (name, node) (List.mem_cons_self _ _)
      have hnm2 : ¬(name = "") := by
        intro h0
        exact absurd hnm (by rw [h0]; decide)
      have hdsegs : segsR env (joinP dest name) = segsR env dest ++ [name] :=
        segsR_join env dest name habs hnm
      have hop : (∀ k,
            ¬(lookupN (if node.isDir then copyRec fs (joinP src name) (joinP dest name)
                else cpM env fuel fs (joinP src name) (joinP dest name)).2 k = lookupN fs k) →
            List.IsPrefix k (segsR env dest) ∨
            ∃ n rest2, k = segsR env dest ++ n :: rest2 ∧ isExcluded n = false) ∧
          linkFreeFS (if node.isDir then copyRec fs (joinP src name) (joinP dest name)
            else cpM env fuel fs (joinP src name) (joinP dest name)).2 = true ∧
          wfFS (if node.isDir then copyRec fs (joinP src name) (joinP dest name)
            else cpM env fuel fs (joinP src name) (joinP dest name)).2 = true := by
        cases hdir : node.isDir with
        | true =>
          rw [if_pos rfl]
          obtain ⟨hreg, hlf, hwf⟩ := hrec fs (joinP src name) (joinP dest name) hl hw
            (joinP_abs dest name habs hnm2)
          refine ⟨fun k hk => ?_, hlf, hwf⟩
          rcases hreg k hk with h1 | h2
          · rw [hdsegs] at h1
            rcases pre_concat k (segsR env dest) name h1 with h3 | h4
            · exact Or.inl h3
            · exact Or.inr ⟨name, [], h4, hexf⟩
          · obtain ⟨n, rest2, hkeq, hnex⟩ := h2
            rw [hdsegs] at hkeq
            exact Or.inr ⟨name, n :: rest2, by rw [hkeq]; simp, hexf⟩
        | false =>
          rw [if_neg (by simp)]
          obtain ⟨hreg, hlf, hwf⟩ := cpM_spec env fuel fs (joinP src name) (joinP dest name) hl
          refine ⟨fun k hk => ?_, hlf, hwf hw⟩
          have h1 := hreg k hk
          rw [hdsegs] at h1
          exact Or.inr ⟨name, [], h1, hexf⟩
      obtain ⟨hreg1, hlf1, hwf1⟩ := hop
      split
      · rename_i e2 fs1 heq
        rw [heq] at hreg1 hlf1 hwf1
        exact ⟨hreg1, hlf1, hwf1⟩
      · rename_i u fs1 heq
        rw [heq] at hreg1 hlf1 hwf1
        obtain ⟨hreg2, hlf2, hwf2⟩ := ih fs1 src dest hlf1 hwf1 habs
          (fun e2 he2 => hns e2 (List.mem_cons_of_mem _ he2))
        refine ⟨fun k hk => ?_, hlf2, hwf2⟩
        rcases ne_split _ (lookupN fs1 k) _ hk with h1 | h2
        · exact hreg2 k h1
        · exact hreg1 k h2

/-- Unfolding: `copyDirectory` with exhausted fuel. -/
theorem copyDir_zero (env : Env) (fs : FS) (src dest : String) :
    copyDir env 0 fs src dest = (.error .efuel, fs) := rfl

/-- Unfolding: one `copyDirectory` call. -/
theorem copyDir_succ (env : Env) (fuel : Nat) (fs : FS) (src dest : String) :
    copyDir env (fuel + 1) fs src dest =
      match mkdirp env (fuel + 1) fs dest with
      | (.error e, fs1) => (.error e, fs1)
      | (.ok _, fs1) =>
        match readdirM env (fuel + 1) fs1 src with
        | .error e => (.error e, fs1)
        | .ok entries =>
          copyEntries env (fuel + 1) (fun fs2 s d => copyDir env fuel fs2 s d)
            fs1 src dest entries := rfl

/-- On a link-free well-formed filesystem `copyDirectory` writes only
along the destination's ancestor chain or strictly below the destination
at non-excluded child names, and preserves the invariants. -/
theorem copyDir_spec (env : Env) :
    ∀ (fuel : Nat) (fs : FS) (src dest : String),
      linkFreeFS fs = true → wfFS fs = true → isAbs dest = true →
      (∀ k, ¬(lookupN (copyDir env fuel fs src dest).2 k = lookupN fs k) →
        List.IsPrefix k (segsR env dest) ∨
        ∃ n rest2, k = segsR env dest ++ n :: rest2 ∧ isExcluded n = false) ∧
      linkFreeFS (copyDir env fuel fs src dest).2 = true ∧
      wfFS (copyDir env fuel fs src dest).2 = true := by
  intro fuel
  induction fuel with
  | zero =>
    intro fs src dest hl hw habs
    rw [copyDir_zero]
    exact ⟨fun k hk => absurd rfl hk, hl, hw⟩
  | succ fuel ih =>
    intro fs src dest hl hw habs
    rw [copyDir_succ]
    obtain ⟨hreg1, hlf1, hwf1⟩ := mkdirp_spec env (fuel + 1) fs dest hl
    split
    · rename_i e fs1 heq
      rw [heq] at hreg1 hlf1 hwf1
      exact ⟨fun k hk => Or.inl (hreg1 k hk), hlf1, hwf1 hw⟩
    · rename_i u fs1 heq
      rw [heq] at hreg1 hlf1 hwf1
      have hw1 := hwf1 hw
      split
      · exact ⟨fun k hk => Or.inl (hreg1 k hk), hlf1, hw1⟩
      · rename_i entries heqr
        have hnames : ∀ e ∈ entries, normalSeg e.1 = true := by
          obtain ⟨full, hfull⟩ := readdirM_ok env (fuel + 1) fs1 src entries heqr
          intro e he
          rw [hfull] at he
          exact childrenOf_wf fs1 full hw1 e he
        obtain ⟨hreg2, hlf2, hwf2⟩ := copyEntries_spec env (fuel + 1)
          (fun fs2 s d => copyDir env fuel fs2 s d)
          (fun fs2 s d h1 h2 h3 => ih fs2 s d h1 h2 h3)
          entries fs1 src dest hlf1 hw1 habs hnames
        refine ⟨fun k hk => ?_, hlf2, hwf2⟩
        rcases ne_split _ (lookupN fs1 k) _ hk with h1 | h2
        · exact hreg2 k h1
        · exact Or.inl (hreg1 k h2)

/-- `mkdir` followed by `copyDirectory` stays within the same region. -/
theorem copyPhase_spec (env : Env) (fuel : Nat) (fs : FS) (srcPath dir : String)
    (hl : linkFreeFS fs = true) (hw : wfFS fs = true) (habs : isAbs dir = true) :
    (∀ k, ¬(lookupN (copyPhase env fuel fs srcPath dir).2 k = lookupN fs k) →
      List.IsPrefix k (segsR env dir) ∨
      ∃ n rest2, k = segsR env dir ++ n :: rest2 ∧ isExcluded n = false) ∧
    linkFreeFS (copyPhase env fuel fs srcPath dir).2 = true ∧
    wfFS (copyPhase env fuel fs srcPath dir).2 = true := by
  rw [copyPhase]
  obtain ⟨hreg1, hlf1, hwf1⟩ := mkdirp_spec env fuel fs dir hl
  split
  · rename_i e fs1 heq
    rw [heq] at hreg1 hlf1 hwf1
    exact ⟨fun k hk => Or.inl (hreg1 k hk), hlf1, hwf1 hw⟩
  · rename_i u fs1 heq
    rw [heq] at hreg1 hlf1 hwf1
    obtain ⟨hreg2, hlf2, hwf2⟩ := copyDir_spec env fuel fs1 srcPath dir hlf1 (hwf1 hw) habs
    refine ⟨fun k hk => ?_, hlf2, hwf2⟩
    rcases ne_split _ (lookupN fs1 k) _ hk with h1 | h2
    · exact hreg2 k h1
    · exact Or.inl (hreg1 k h2)

/-- Master confinement: on a link-free well-formed filesystem, every key
`installSkillForAgent` creates or modifies lies on the ancestor chain of
the canonical skill directory, strictly below it at a non-excluded child,
on the ancestor chain of the agent skill directory, strictly below it at
a non-excluded child, or below the agent directory and left deleted. -/
theorem installM_confined (env : Env) (fuel : Nat) (fs : FS) (skill : Skill)
    (agent : AgentConfig) (opts : InstallOptions)
    (hl : linkFreeFS fs = true) (hw : wfFS fs = true)
    (habs1 : isAbs (canonicalDirOf env skill agent opts) = true)
    (habs2 : isAbs (agentDirOf env skill agent opts) = true) :
    ∀ k, ¬(lookupN (installSkillForAgentM env fuel fs skill agent opts).2 k = lookupN fs k) →
      List.IsPrefix k (segsR env (canonicalDirOf env skill agent opts)) ∨
      (∃ n rest2, k = segsR env (canonicalDirOf env skill agent opts) ++ n :: rest2 ∧
        isExcluded n = false) ∨
      List.IsPrefix k (segsR env (agentDirOf env skill agent opts)) ∨
      (∃ n rest2, k = segsR env (agentDirOf env skill agent opts) ++ n :: rest2 ∧
        isExcluded n = false) ∨
      (List.IsPrefix (segsR env (agentDirOf env skill agent opts)) k ∧
        lookupN (installSkillForAgentM env fuel fs skill agent opts).2 k = none) := by
  rw [canonicalDirOf] at habs1 ⊢
  rw [agentDirOf] at habs2 ⊢
  rw [installSkillForAgentM]
  split
  · exact fun k hk => absurd rfl hk
  · split
    · exact fun k hk => absurd rfl hk
    · split
      · rename_i e fs1 heq
        intro k hk
        obtain ⟨hreg1, hlf1, hwf1⟩ := copyPhase_spec env fuel fs skill.path
          ((installPaths env skill agent opts).2.1) hl hw habs1
        rw [heq] at hreg1
        rcases hreg1 k hk with h1 | h2
        · exact Or.inl h1
        · exact Or.inr (Or.inl h2)
      · rename_i u fs1 heq
        obtain ⟨hreg1, hlf1, hwf1⟩ := copyPhase_spec env fuel fs skill.path
          ((installPaths env skill agent opts).2.1) hl hw habs1
        rw [heq] at hreg1 hlf1 hwf1
        split
        · split
          · rename_i e fs2 heq2
            intro k hk
            obtain ⟨hreg2, hlf2, hwf2⟩ := copyPhase_spec env fuel fs1 skill.path
              ((installPaths env skill agent opts).2.2.2) hlf1 hwf1 habs2
            rw [heq2] at hreg2
            rcases ne_split _ (lookupN fs1 k) _ hk with h1 | h2
            · rcases hreg2 k h1 with h3 | h4
              · exact Or.inr (Or.inr (Or.inl h3))
              · exact Or.inr (Or.inr (Or.inr (Or.inl h4)))
            · rcases hreg1 k h2 with h3 | h4
              · exact Or.inl h3
              · exact Or.inr (Or.inl h4)
          · rename_i u2 fs2 heq2
            intro k hk
            obtain ⟨hreg2, hlf2, hwf2⟩ := copyPhase_spec env fuel fs1 skill.path
              ((installPaths env skill agent opts).2.2.2) hlf1 hwf1 habs2
            rw [heq2] at hreg2
            rcases ne_split _ (lookupN fs1 k) _ hk with h1 | h2
            · rcases hreg2 k h1 with h3 | h4
              · exact Or.inr (Or.inr (Or.inl h3))
              · exact Or.inr (Or.inr (Or.inr (Or.inl h4)))
            · rcases hreg1 k h2 with h3 | h4
              · exact Or.inl h3
              · exact Or.inr (Or.inl h4)
        · split
          · rename_i fs2 heq2
            intro k hk
            obtain ⟨hreg2, hff2, hwf2⟩ := createSymlinkM_spec env fuel fs1
              ((installPaths env skill agent opts).2.1)
              ((installPaths env skill agent opts).2.2.2) hlf1 habs2
            rw [heq2] at hreg2
            rcases ne_split _ (lookupN fs1 k) _ hk with h1 | h2
            · rcases hreg2 k h1 with h3 | h4
              · exact Or.inr (Or.inr (Or.inl h3))
              · exact Or.inr (Or.inr (Or.inr (Or.inr h4)))
            · rcases hreg1 k h2 with h3 | h4
              · exact Or.inl h3
              · exact Or.inr (Or.inl h4)
          · rename_i fs2 heq2
            obtain ⟨hreg2, hff2, hwf2⟩ := createSymlinkM_spec env fuel fs1
              ((installPaths env skill agent opts).2.1)
              ((installPaths env skill agent opts).2.2.2) hlf1 habs2
            rw [heq2] at hreg2 hff2 hwf2
            have hlf2 : linkFreeFS fs2 = true := hff2 rfl
            have hwf2b : wfFS fs2 = true := hwf2 hwf1
            obtain ⟨hreg3, hlf3, hwf3⟩ := copyPhase_spec env fuel fs2 skill.path
              ((installPaths env skill agent opts).2.2.2) hlf2 hwf2b habs2
            split
            · rename_i e fs3 heq3
              intro k hk
              rw [heq3] at hreg3
              by_cases h23 : lookupN fs3 k = lookupN fs2 k
              · have h12 : ¬(lookupN fs2 k = lookupN fs k) := fun h => hk (h23.trans h)
                rcases ne_split _ (lookupN fs1 k) _ h12 with h1 | h2
                · rcases hreg2 k h1 with h3 | h4
                  · exact Or.inr (Or.inr (Or.inl h3))
                  · exact Or.inr (Or.inr (Or.inr (Or.inr ⟨h4.1, h23.trans h4.2⟩)))
                · rcases hreg1 k h2 with h3 | h4
                  · exact Or.inl h3
                  · exact Or.inr (Or.inl h4)
              · rcases hreg3 k h23 with h3 | h4
                · exact Or.inr (Or.inr (Or.inl h3))
                · exact Or.inr (Or.inr (Or.inr (Or.inl h4)))
            · rename_i u3 fs3 heq3
              intro k hk
              rw [heq3] at hreg3
              by_cases h23 : lookupN fs3 k = lookupN fs2 k
              · have h12 : ¬(lookupN fs2 k = lookupN fs k) := fun h => hk (h23.trans h)
                rcases ne_split _ (lookupN fs1 k) _ h12 with h1 | h2
                · rcases hreg2 k h1 with h3 | h4
                  · exact Or.inr (Or.inr (Or.inl h3))
                  · exact Or.inr (Or.inr (Or.inr (Or.inr ⟨h4.1, h23.trans h4.2⟩)))
                · rcases hreg1 k h2 with h3 | h4
                  · exact Or.inl h3
                  · exact Or.inr (Or.inl h4)
              · rcases hreg3 k h23 with h3 | h4
                · exact Or.inr (Or.inr (Or.inl h3))
                · exact Or.inr (Or.inr (Or.inr (Or.inl h4)))

/-- No filesystem error message is the traversal-rejection string. -/
theorem FsError.message_ne_trav (e : FsError) : ¬(FsError.message e = travMsg) := by
  cases e <;> decide

/-- An excluded child key never coincides with a non-excluded child
subtree key of the same directory. -/
theorem excl_concat_ne (cd : List String) (n n2 : String) (rest2 : List String)
    (hn : isExcluded n = true) (hnex : isExcluded n2 = false)
    (hkeq : cd ++ [n] = cd ++ n2 :: rest2) : False := by
  have h6 : [n] = n2 :: rest2 := List.append_cancel_left hkeq
  injection h6 with h6a h6b
  subst h6a
  rw [hn] at hnex
  cases hnex

/-- C2 (amended): for every skill — in particular one whose name contains
`../../etc`, `/etc/passwd`, or an embedded null byte — installed on a
link-free well-formed filesystem under absolute non-root base
directories, `installSkillForAgent` does not reject: the sanitized name
passes both path-safety gates and the returned result never carries the
traversal error. The no-write-outside half of the claim holds: every key
the install creates or modifies lies on the ancestor chain of, or
inside, the canonical base or the agent base. -/
theorem c2_sanitized_names_confined (env : Env) (fuel : Nat) (fs : FS) (skill : Skill)
    (agent : AgentConfig) (opts : InstallOptions)
    (hl : linkFreeFS fs = true) (hw : wfFS fs = true)
    (habs1 : isAbs (canonicalBaseOf env skill agent opts) = true)
    (habs2 : isAbs (agentBaseOf env skill agent opts) = true)
    (hroot1 : resolveP env (canonicalBaseOf env skill agent opts) ≠ "/")
    (hroot2 : resolveP env (agentBaseOf env skill agent opts) ≠ "/") :
    isPathSafe env (canonicalBaseOf env skill agent opts)
      (canonicalDirOf env skill agent opts) = true ∧
    isPathSafe env (agentBaseOf env skill agent opts)
      (agentDirOf env skill agent opts) = true ∧
    ¬((installSkillForAgentM env fuel fs skill agent opts).1.error = some travMsg) ∧
    ∀ k, ¬(lookupN (installSkillForAgentM env fuel fs skill agent opts).2 k = lookupN fs k) →
      List.IsPrefix k (segsR env (canonicalBaseOf env skill agent opts)) ∨
      List.IsPrefix (segsR env (canonicalBaseOf env skill agent opts)) k ∨
      List.IsPrefix k (segsR env (agentBaseOf env skill agent opts)) ∨
      List.IsPrefix (segsR env (agentBaseOf env skill agent opts)) k := by
  have hcdeq : canonicalDirOf env skill agent opts
      = joinP (canonicalBaseOf env skill agent opts) (sanitizeName (rawName skill)) := rfl
  have hadeq : agentDirOf env skill agent opts
      = joinP (agentBaseOf env skill agent opts) (sanitizeName (rawName skill)) := rfl
  have hg1 : isPathSafe env (canonicalBaseOf env skill agent opts)
      (canonicalDirOf env skill agent opts) = true := by
    rw [hcdeq]
    exact c9_sanitize_always_safe env _ (rawName skill) habs1 hroot1
  have hg2 : isPathSafe env (agentBaseOf env skill agent opts)
      (agentDirOf env skill agent opts) = true := by
    rw [hadeq]
    exact c9_sanitize_always_safe env _ (rawName skill) habs2 hroot2
  have habs1d : isAbs (canonicalDirOf env skill agent opts) = true := by
    rw [hcdeq]
    exact joinP_abs _ _ habs1 (sanitizeName_ne_empty _)
  have habs2d : isAbs (agentDirOf env skill agent opts) = true := by
    rw [hadeq]
    exact joinP_abs _ _ habs2 (sanitizeName_ne_empty _)
  have hcdsegs : segsR env (canonicalDirOf env skill agent opts)
      = segsR env (canonicalBaseOf env skill agent opts) ++ [sanitizeName (rawName skill)] := by
    rw [hcdeq]
    exact segsR_join env _ _ habs1 (sanitizeName_normalSeg _)
  have hadsegs : segsR env (agentDirOf env skill agent opts)
      = segsR env (agentBaseOf env skill agent opts) ++ [sanitizeName (rawName skill)] := by
    rw [hadeq]
    exact segsR_join env _ _ habs2 (sanitizeName_normalSeg _)
  have herr : ¬((installSkillForAgentM env fuel fs skill agent opts).1.error
      = some travMsg) := by
    have hg1p : isPathSafe env (installPaths env skill agent opts).1
        (installPaths env skill agent opts).2.1 = true := hg1
    have hg2p : isPathSafe env (installPaths env skill agent opts).2.2.1
        (installPaths env skill agent opts).2.2.2 = true := hg2
    rw [installSkillForAgentM]
    split
    · rename_i hcond
      rw [hg1p] at hcond
      simp at hcond
    · split
      · rename_i hcond
        rw [hg2p] at hcond
        simp at hcond
      · split
        · rename_i e fs1 heq
          intro h
          injection h with h
          exact FsError.message_ne_trav e h
        · split
          · split
            · rename_i e fs2 heq2
              intro h
              injection h with h
              exact FsError.message_ne_trav e h
            · exact fun h => Option.noConfusion h
          · split
            · exact fun h => Option.noConfusion h
            · split
              · rename_i e fs3 heq3
                intro h
                injection h with h
                exact FsError.message_ne_trav e h
              · exact fun h => Option.noConfusion h
  refine ⟨hg1, hg2, herr, fun k hk => ?_⟩
  rcases installM_confined env fuel fs skill agent opts hl hw habs1d habs2d k hk
    with h1 | h2 | h3 | h4 | h5
  · rw [hcdsegs] at h1
    rcases pre_concat _ _ _ h1 with h6 | h7
    · exact Or.inl h6
    · refine Or.inr (Or.inl ?_)
      rw [h7]
      exact List.prefix_append _ _
  · obtain ⟨n, rest2, hkeq, hnex⟩ := h2
    refine Or.inr (Or.inl ?_)
    rw [hkeq, hcdsegs, List.append_assoc]
    exact List.prefix_append _ _
  · rw [hadsegs] at h3
    rcases pre_concat _ _ _ h3 with h6 | h7
    · exact Or.inr (Or.inr (Or.inl h6))
    · refine Or.inr (Or.inr (Or.inr ?_))
      rw [h7]
      exact List.prefix_append _ _
  · obtain ⟨n, rest2, hkeq, hnex⟩ := h4
    refine Or.inr (Or.inr (Or.inr ?_))
    rw [hkeq, hadsegs, List.append_assoc]
    exact List.prefix_append _ _
  · refine Or.inr (Or.inr (Or.inr ?_))
    refine List.IsPrefix.trans ?_ h5.1
    rw [hadsegs]
    exact List.prefix_append _ _

/-- Witness for C2: the concrete project-scope install of the
traversal-named skill `../../etc` on the base fixture passes both gates
and does not return the traversal error. -/
theorem c2_sanitized_names_confined_witness :
    linkFreeFS fsBase = true ∧ wfFS fsBase = true ∧
    isPathSafe scEnv (canonicalBaseOf scEnv skillEtc claudeConfig optsP)
      (canonicalDirOf scEnv skillEtc claudeConfig optsP) = true ∧
    ¬((installSkillForAgentM scEnv 20 fsBase skillEtc claudeConfig optsP).1.error
      = some travMsg) :=
  ⟨by decide, by decide,
   (c2_sanitized_names_confined scEnv 20 fsBase skillEtc claudeConfig optsP
     (by decide) (by decide) (by decide) (by decide) (by decide) (by decide)).1,
   (c2_sanitized_names_confined scEnv 20 fsBase skillEtc claudeConfig optsP
     (by decide) (by decide) (by decide) (by decide) (by decide) (by decide)).2.2.1⟩

/-- C8: for every source tree, link-free well-formed initial state, and
excluded entry name (`README.md`, `metadata.json`, or `_`-prefixed):
when the computed canonical and agent skill directories either coincide
or do not nest, and neither tree holds the excluded child beforehand,
`installSkillForAgent` leaves the excluded name absent from both the
canonical store tree and the agent-visible tree — the copy never writes
an excluded entry. -/
theorem c8_admin_files_excluded (env : Env) (fuel : Nat) (fs : FS) (skill : Skill)
    (agent : AgentConfig) (opts : InstallOptions)
    (hl : linkFreeFS fs = true) (hw : wfFS fs = true)
    (habs1 : isAbs (canonicalDirOf env skill agent opts) = true)
    (habs2 : isAbs (agentDirOf env skill agent opts) = true)
    (n : String) (hn : isExcluded n = true)
    (hsep : segsR env (agentDirOf env skill agent opts)
        = segsR env (canonicalDirOf env skill agent opts) ∨
      (¬ List.IsPrefix (segsR env (canonicalDirOf env skill agent opts))
          (segsR env (agentDirOf env skill agent opts)) ∧
       ¬ List.IsPrefix (segsR env (agentDirOf env skill agent opts))
          (segsR env (canonicalDirOf env skill agent opts))))
    (hfresh1 : lookupN fs (segsR env (canonicalDirOf env skill agent opts) ++ [n]) = none)
    (hfresh2 : lookupN fs (segsR env (agentDirOf env skill agent opts) ++ [n]) = none) :
    lookupN (installSkillForAgentM env fuel fs skill agent opts).2
      (segsR env (canonicalDirOf env skill agent opts) ++ [n]) = none ∧
    lookupN (installSkillForAgentM env fuel fs skill agent opts).2
      (segsR env (agentDirOf env skill agent opts) ++ [n]) = none := by
  constructor
  · by_cases hch : lookupN (installSkillForAgentM env fuel fs skill agent opts).2
        (segsR env (canonicalDirOf env skill agent opts) ++ [n])
        = lookupN fs (segsR env (canonicalDirOf env skill agent opts) ++ [n])
    · exact hch.trans hfresh1
    · rcases installM_confined env fuel fs skill agent opts hl hw habs1 habs2 _ hch
        with h1 | h2 | h3 | h4 | h5
      · exact absurd h1 (not_concat_pre _ _)
      · obtain ⟨n2, rest2, hkeq, hnex⟩ := h2
        exact absurd hkeq (fun hkeq => excl_concat_ne _ n n2 rest2 hn hnex hkeq)
      · rcases hsep with hEq | ⟨hncd, hnad⟩
        · rw [hEq] at h3
          exact absurd h3 (not_concat_pre _ _)
        · exact absurd ((List.prefix_append _ _).trans h3) hncd
      · obtain ⟨n2, rest2, hkeq, hnex⟩ := h4
        rcases hsep with hEq | ⟨hncd, hnad⟩
        · rw [hEq] at hkeq
          exact (excl_concat_ne _ n n2 rest2 hn hnex hkeq).elim
        · have had : List.IsPrefix (segsR env (agentDirOf env skill agent opts))
              (segsR env (canonicalDirOf env skill agent opts) ++ [n]) :=
            ⟨n2 :: rest2, hkeq.symm⟩
          rcases pre_concat _ _ _ had with h6 | h7
          · exact absurd h6 hnad
          · refine absurd ?_ hncd
            rw [h7]
            exact List.prefix_append _ _
      · exact h5.2
  · by_cases hch : lookupN (installSkillForAgentM env fuel fs skill agent opts).2
        (segsR env (agentDirOf env skill agent opts) ++ [n])
        = lookupN fs (segsR env (agentDirOf env skill agent opts) ++ [n])
    · exact hch.trans hfresh2
    · rcases installM_confined env fuel fs skill agent opts hl hw habs1 habs2 _ hch
        with h1 | h2 | h3 | h4 | h5
      · rcases hsep with hEq | ⟨hncd, hnad⟩
        · rw [← hEq] at h1
          exact absurd h1 (not_concat_pre _ _)
        · exact absurd ((List.prefix_append _ _).trans h1) hnad
      · obtain ⟨n2, rest2, hkeq, hnex⟩ := h2
        rcases hsep with hEq | ⟨hncd, hnad⟩
        · rw [← hEq] at hkeq
          exact (excl_concat_ne _ n n2 rest2 hn hnex hkeq).elim
        · have hcd : List.IsPrefix (segsR env (canonicalDirOf env skill agent opts))
              (segsR env (agentDirOf env skill agent opts) ++ [n]) :=
            ⟨n2 :: rest2, hkeq.symm⟩
          rcases pre_concat _ _ _ hcd with h6 | h7
          · exact absurd h6 hncd
          · refine absurd ?_ hnad
            rw [h7]
            exact List.prefix_append _ _
      · exact absurd h3 (not_concat_pre _ _)
      · obtain ⟨n2, rest2, hkeq, hnex⟩ := h4
        exact (excl_concat_ne _ n n2 rest2 hn hnex hkeq).elim
      · exact h5.2

/-- Witness for C8: installing the skill at `/r/src` — whose source tree
holds `README.md`, `metadata.json` and `_x` — for the `claude-code`
agent leaves `README.md` absent from both resulting trees. -/
theorem c8_admin_files_excluded_witness :
    isExcluded "README.md" = true ∧
    lookupN (installSkillForAgentM scEnv 20 fsAdmin skillS claudeConfig optsP).2
      (segsR scEnv (canonicalDirOf scEnv skillS claudeConfig optsP) ++ ["README.md"]) = none ∧
    lookupN (installSkillForAgentM scEnv 20 fsAdmin skillS claudeConfig optsP).2
      (segsR scEnv (agentDirOf scEnv skillS claudeConfig optsP) ++ ["README.md"]) = none :=
  ⟨by decide,
   (c8_admin_files_excluded scEnv 20 fsAdmin skillS claudeConfig optsP
     (by decide) (by decide) (by decide) (by decide) "README.md" (by decide)
     (Or.inr ⟨by decide, by decide⟩) (by decide) (by decide)).1,
   (c8_admin_files_excluded scEnv 20 fsAdmin skillS claudeConfig optsP
     (by decide) (by decide) (by decide) (by decide) "README.md" (by decide)
     (Or.inr ⟨by decide, by decide⟩) (by decide) (by decide)).2⟩
end AddSkill
